import Mathlib

/-!
Verification of the arango-orm core: a shallow embedding of
`src/arango_orm/database.py` (change-tracked persister and graph-schema
synchronizer) and `src/arango_orm/query.py` (query builder), together with
theorems checking the natural-language specification against the code.

External collaborators (the arango client, the entity model from
`collections.py`, the hook dispatcher) are modelled at their interfaces:
remote calls and hook dispatches are recorded as events in a trace, and the
client results are supplied by an oracle structure.
-/

namespace ArangoOrm

/-- JSON-ish values appearing in serialized entity payloads.  Only nullness
matters to the persister, the rest is carried opaquely. -/
inductive JVal where
  | null : JVal
  | str (s : String) : JVal
  | num (n : Int) : JVal
deriving DecidableEq, Repr

/-- A serialized payload: a python dict with string keys (association list,
keys unique in practice). -/
abbrev Dict := List (String × JVal)

/-- `Database._entity_pre_process`: delete the identity keys `_key` and `_rev`
from the payload when their value is null (python None). -/
def entity_pre_process (d : Dict) : Dict :=
  d.filter (fun kv => !((kv.1 == "_key" || kv.1 == "_rev") && kv.2 == JVal.null))

/-- An entity as seen by the persister: identity of the python object
(`eid`), its target collection name, the result of `model_dump` (serialized
payload with aliased keys), the dirty-field set, the written-back identity
fields, and whether `_db` has been attached by the persister. -/
structure Entity where
  eid : Nat
  coll : String
  dump : Dict
  dirty : List String
  key_ : Option JVal := none
  rev_ : Option JVal := none
  hasDb : Bool := false
deriving DecidableEq, Repr

/-- `Database._entity_post_process`: write the database-assigned `_key` and
`_rev` from the call result back onto the entity.  In the source, each
write-back is a `setattr` (which the entity model records in the dirty set)
immediately followed by removing that field name from the dirty set; the net
effect modelled here is that the identity field names are absent from the
dirty set afterwards. -/
def entity_post_process (e : Entity) (result : Dict) : Entity :=
  let e1 :=
    match result.lookup "_key" with
    | some v =>
        if v ≠ JVal.null then
          { e with key_ := some v, dirty := e.dirty.filter (fun f => f ≠ "key_") }
        else e
    | none => e
  match result.lookup "_rev" with
  | some v =>
      if v ≠ JVal.null then
        { e1 with rev_ := some v, dirty := e1.dirty.filter (fun f => f ≠ "rev_") }
      else e1
  | none => e1

/-- Observable interactions of the persister: hook dispatches and remote
calls against the external client, with the payloads sent. -/
inductive Event where
  | dispatch (eid : Nat) (hook : String) : Event
  | insert (coll : String) (payload : Dict) : Event
  | insertMany (coll : String) (payloads : List Dict) : Event
  | updateOne (coll : String) (payload : Dict) : Event
  | updateMany (coll : String) (payloads : List Dict) : Event
deriving DecidableEq, Repr

/-- Result oracle for the external database client: what each remote call
returns (the persister treats these as opaque result dicts, positionally
correlated for the batched calls). -/
structure Client where
  insertRes : String → Dict → Dict
  insertManyRes : String → List Dict → List Dict
  updateRes : String → Dict → Dict
  updateManyRes : String → List Dict → List Dict

/-- `Database.add` with `if_present = None` (the main insert path, lines
172-185 of `database.py`): serialize, strip null identity fields, dispatch
the pre-add hook, attach the persister, insert via the client, write back
identity fields, clear the dirty set, dispatch the post-add hook.  Returns
the updated entity together with the event trace in source order. -/
def Database.add (c : Client) (e : Entity) : Entity × List Event :=
  let data_json := e.dump
  let data := entity_pre_process data_json
  let e1 := { e with hasDb := true }
  let res := c.insertRes e.coll data
  let e2 := entity_post_process e1 res
  let e3 := { e2 with dirty := [] }
  (e3,
    [Event.dispatch e.eid "pre_add", Event.insert e.coll data,
     Event.dispatch e.eid "post_add"])

/-- `Database.update` (lines 258-285): with `only_dirty` and an empty dirty
set the call returns the entity immediately with no events; otherwise it
dispatches pre-update, serializes (full dump, or `_key` plus dirty fields
when `only_dirty`), strips null identity fields, calls the client update,
clears the dirty set, writes back identity fields and dispatches
post-update. -/
def Database.update (c : Client) (e : Entity) (only_dirty : Bool) :
    Entity × List Event :=
  if only_dirty && e.dirty.isEmpty then (e, [])
  else
    let data :=
      if only_dirty then
        e.dump.filter (fun kv => kv.1 == "_key" || e.dirty.contains kv.1)
      else e.dump
    let e1 := { e with hasDb := true }
    let data := entity_pre_process data
    let res := c.updateRes e.coll data
    let e2 := { e1 with dirty := [] }
    let e3 := entity_post_process e2 res
    (e3,
      [Event.dispatch e.eid "pre_update", Event.updateOne e.coll data,
       Event.dispatch e.eid "post_update"])

/-- One per-collection accumulator group of a bulk call: the serialized
payloads and the entity objects, in input order. -/
structure Group where
  dicts : List Dict
  objs : List Entity
deriving DecidableEq, Repr

/-- The `collections` dict threaded through a bulk call: an insertion-ordered
mapping from collection name to its group. -/
abbrev Groups := List (String × Group)

/-- Append one (payload, entity) pair to the group of collection `n`,
creating the group at the end when absent (python dict insertion order). -/
def addToGroup (gs : Groups) (n : String) (d : Dict) (e : Entity) : Groups :=
  match gs with
  | [] => [(n, ⟨[d], [e]⟩)]
  | (c, g) :: rest =>
      if c = n then (c, ⟨g.dicts ++ [d], g.objs ++ [e]⟩) :: rest
      else (c, g) :: addToGroup rest n d e

/-- Outcome of a bulk call: `short` is the entity returned by the
`only_dirty` short-circuit (none on a full run), `groups` is the
`collections` accumulator (holding the mutated entity objects), and `trace`
records hook dispatches and remote calls in source order. -/
structure BulkOut where
  short : Option Entity
  groups : Groups
  trace : List Event
deriving Repr

/-- First phase of `Database.bulk_add` (lines 198-226): per entity, dump;
with `only_dirty` return the entity as soon as one has an empty dirty set,
else keep only `_key` and dirty fields; strip null identity fields; dispatch
pre-update (the hook string in the source is pre_update, not pre_add);
append to the per-collection group; attach the persister and clear the dirty
set. -/
def bulkAddPhase1 (only_dirty : Bool) :
    List Entity → Groups → List Event → Option Entity × Groups × List Event
  | [], gs, tr => (none, gs, tr)
  | e :: rest, gs, tr =>
      if only_dirty && e.dirty.isEmpty then (some e, gs, tr)
      else
        let data := e.dump
        let data :=
          if only_dirty then
            data.filter (fun kv => kv.1 == "_key" || e.dirty.contains kv.1)
          else data
        let data := entity_pre_process data
        let tr := tr ++ [Event.dispatch e.eid "pre_update"]
        let e1 := { e with hasDb := true, dirty := [] }
        bulkAddPhase1 only_dirty rest (addToGroup gs e.coll data e1) tr

/-- Per-group tail of `bulk_add` (lines 234-237): for each entity, clear the
dirty set, write back `res[num]` positionally and dispatch post-add. -/
def bulkAddFinish (objs : List Entity) (res : List Dict) :
    List Entity × List Event :=
  match objs, res with
  | [], _ => ([], [])
  | _ :: _, [] => ([], [])
  | e :: objs, r :: res =>
      let e1 := entity_post_process { e with dirty := [] } r
      let (rest, tr) := bulkAddFinish objs res
      (e1 :: rest, Event.dispatch e.eid "post_add" :: tr)

/-- Second phase of `Database.bulk_add` (lines 228-237): one `insert_many`
call per accumulated collection group, in group insertion order, then the
positional write-back loop. -/
def bulkAddPhase2 (c : Client) : Groups → Groups × List Event
  | [] => ([], [])
  | (n, g) :: rest =>
      let res := c.insertManyRes n g.dicts
      let fin := bulkAddFinish g.objs res
      let rec1 := bulkAddPhase2 c rest
      ((n, ⟨g.dicts, fin.1⟩) :: rec1.1,
        Event.insertMany n g.dicts :: fin.2 ++ rec1.2)

/-- `Database.bulk_add` (lines 187-239). -/
def Database.bulk_add (c : Client) (entity_list : List Entity)
    (only_dirty : Bool) : BulkOut :=
  let p1 := bulkAddPhase1 only_dirty entity_list [] []
  match p1.1 with
  | some e => ⟨some e, p1.2.1, p1.2.2⟩
  | none =>
      let p2 := bulkAddPhase2 c p1.2.1
      ⟨none, p2.1, p1.2.2 ++ p2.2⟩

/-- First phase of `Database.bulk_update` (lines 299-334): same shape as the
bulk-add first phase, except that the pre-update dispatch precedes the
payload filtering and the dirty set is NOT cleared in this loop (line 334 is
commented out in the source). -/
def bulkUpdatePhase1 (only_dirty : Bool) :
    List Entity → Groups → List Event → Option Entity × Groups × List Event
  | [], gs, tr => (none, gs, tr)
  | e :: rest, gs, tr =>
      if only_dirty && e.dirty.isEmpty then (some e, gs, tr)
      else
        let tr := tr ++ [Event.dispatch e.eid "pre_update"]
        let data :=
          if only_dirty then
            e.dump.filter (fun kv => kv.1 == "_key" || e.dirty.contains kv.1)
          else e.dump
        let data := entity_pre_process data
        let e1 := { e with hasDb := true }
        bulkUpdatePhase1 only_dirty rest (addToGroup gs e.coll data e1) tr

/-- Per-group tail of `bulk_update` (lines 342-345): clear the dirty set,
write back `res[num]` positionally and dispatch post-update. -/
def bulkUpdateFinish (objs : List Entity) (res : List Dict) :
    List Entity × List Event :=
  match objs, res with
  | [], _ => ([], [])
  | _ :: _, [] => ([], [])
  | e :: objs, r :: res =>
      let e1 := entity_post_process { e with dirty := [] } r
      let (rest, tr) := bulkUpdateFinish objs res
      (e1 :: rest, Event.dispatch e.eid "post_update" :: tr)

/-- Second phase of `Database.bulk_update` (lines 336-345): one
`update_many` call per accumulated collection group. -/
def bulkUpdatePhase2 (c : Client) : Groups → Groups × List Event
  | [] => ([], [])
  | (n, g) :: rest =>
      let res := c.updateManyRes n g.dicts
      let fin := bulkUpdateFinish g.objs res
      let rec1 := bulkUpdatePhase2 c rest
      ((n, ⟨g.dicts, fin.1⟩) :: rec1.1,
        Event.updateMany n g.dicts :: fin.2 ++ rec1.2)

/-- `Database.bulk_update` (lines 287-347). -/
def Database.bulk_update (c : Client) (entity_list : List Entity)
    (only_dirty : Bool) : BulkOut :=
  let p1 := bulkUpdatePhase1 only_dirty entity_list [] []
  match p1.1 with
  | some e => ⟨some e, p1.2.1, p1.2.2⟩
  | none =>
      let p2 := bulkUpdatePhase2 c p1.2.1
      ⟨none, p2.1, p1.2.2 ++ p2.2⟩

/-! ## Graph schema synchronizer -/

/-- An edge definition: edge collection name and source/target vertex
collection name lists (both as declared from the graph class and as read
live from the database). -/
structure EdgeDef where
  edge_collection : String
  from_vertex_collections : List String
  to_vertex_collections : List String
deriving DecidableEq, Repr

/-- `Database._is_same_edge` (lines 525-549): false when either name list
differs in length; otherwise every name of the first definition must occur
in the corresponding list of the second.  (The source asserts the edge
collection names are equal; every call site guarantees it.) -/
def Database.is_same_edge (e1 e2 : EdgeDef) : Bool :=
  if e1.to_vertex_collections.length ≠ e2.to_vertex_collections.length ∨
      e1.from_vertex_collections.length ≠ e2.from_vertex_collections.length then
    false
  else
    e1.to_vertex_collections.all (fun cname => e2.to_vertex_collections.contains cname) &&
    e1.from_vertex_collections.all (fun cname => e2.from_vertex_collections.contains cname)

/-- Insert a key/value pair with python dict semantics: overwrite in place
when the key exists, append otherwise. -/
def pyDictInsert (d : List (String × EdgeDef)) (k : String) (v : EdgeDef) :
    List (String × EdgeDef) :=
  if d.any (fun kv => kv.1 = k) then
    d.map (fun kv => if kv.1 = k then (k, v) else kv)
  else d ++ [(k, v)]

/-- Build a python dict from a pair list: first-insertion key order, last
value wins on duplicate keys (`dict([(k, v), ...])`). -/
def pyDictOf (ps : List (String × EdgeDef)) : List (String × EdgeDef) :=
  ps.foldl (fun d kv => pyDictInsert d kv.1 kv.2) []

/-- Mutating actions (and the stale-edge warning) performed by a
synchronization pass, in source order.  `dropCollection` is the action of
`Database.drop_collection`; it is listed so that its absence from a
synchronization trace is expressible. -/
inductive GraphAction where
  | createCollection (name : String) : GraphAction
  | createEdgeDefinition (d : EdgeDef) : GraphAction
  | replaceEdgeDefinition (d : EdgeDef) : GraphAction
  | deleteEdgeDefinition (name : String) : GraphAction
  | warnStale (name : String) : GraphAction
  | dropCollection (name : String) : GraphAction
deriving DecidableEq, Repr

/-- The declared graph topology as `update_graph` consumes it.  The graph
class itself lives outside the verified sources; per the spec, the declared
relations (edge collection name plus from/to vertex collection class lists)
fully determine the expected edge definitions, and `graph_connections` names
the same declared edge collections as `edges`.  `vertices` lists the declared
vertex collection names. -/
structure DeclaredGraph where
  vertices : List String
  relations : List EdgeDef
deriving Repr

/-- Vertex-collection creation attempts of `update_graph` (lines 444-457):
each declared vertex collection missing from the existing collection names
is created; creation failures are caught and logged in the source. -/
def ugCreateVertices (existing_collection_names : List String)
    (g : DeclaredGraph) : List GraphAction :=
  g.vertices.filterMap (fun v =>
    if existing_collection_names.contains v then none
    else some (GraphAction.createCollection v))

/-- Edge-collection creation attempts of `update_graph` (lines 459-471). -/
def ugCreateEdgeCollections (existing_collection_names : List String)
    (g : DeclaredGraph) : List GraphAction :=
  g.relations.filterMap (fun rel =>
    if existing_collection_names.contains rel.edge_collection then none
    else some (GraphAction.createCollection rel.edge_collection))

/-- Edge-definition reconciliation of `update_graph` (lines 477-507): per
declared relation, create the edge definition when its edge collection has
no live definition, otherwise replace it iff `_is_same_edge` rejects the
pair. -/
def ugSyncEdgeDefs (existing_edges : List (String × EdgeDef))
    (rels : List EdgeDef) : List GraphAction :=
  rels.foldr (fun rel acc =>
    (match existing_edges.lookup rel.edge_collection with
     | none => [GraphAction.createEdgeDefinition rel]
     | some live =>
         if Database.is_same_edge rel live then []
         else [GraphAction.replaceEdgeDefinition rel]) ++ acc) []

/-- Stale-edge handling of `update_graph` (lines 509-523): warn about and
delete every live edge definition whose edge collection is not among the
declared graph connections. -/
def ugDropStale (existing_edges : List (String × EdgeDef))
    (graph_connections : List String) : List GraphAction :=
  existing_edges.foldr (fun kv acc =>
    (if graph_connections.contains kv.1 then []
     else [GraphAction.warnStale kv.1, GraphAction.deleteEdgeDefinition kv.1]) ++ acc) []

/-- `Database.update_graph` (lines 427-523) as the list of actions it
performs, in source order: vertex-collection creations, edge-collection
creations, edge-definition reconciliation against the live definitions
(keyed by edge collection name with python dict semantics), and stale-edge
removal.  Per the spec, the declared graph connections name the same edge
collections as the declared relations.  No collection is ever dropped. -/
def Database.update_graph (existing_collection_names : List String)
    (live_edges : List EdgeDef) (g : DeclaredGraph) : List GraphAction :=
  ugCreateVertices existing_collection_names g ++
  ugCreateEdgeCollections existing_collection_names g ++
  ugSyncEdgeDefs (pyDictOf (live_edges.map (fun e => (e.edge_collection, e))))
    g.relations ++
  ugDropStale (pyDictOf (live_edges.map (fun e => (e.edge_collection, e))))
    (g.relations.map (fun r => r.edge_collection))

/-! ## Query builder -/

/-- A python argument value, rich enough to express the `isinstance(x, int)`
assertions of `Query.limit` (a non-int argument trips the assert). -/
inductive PyArg where
  | int (n : Int) : PyArg
  | str (s : String) : PyArg
  | noneVal : PyArg
deriving DecidableEq, Repr

/-- Builder state of `Query.__init__`: bind variables (seeded with the
`@collection` name), filter conditions with their computed joiners, sort
columns in call order, and the limit/offset pair (`_limit` starts as python
None). -/
structure Query where
  bind_vars : List (String × String)
  filter_conditions : List (Option String × String)
  sort_columns : List String
  limit_num : Option Int
  limit_start_record : Int
deriving DecidableEq, Repr

/-- A fresh `Query` over a collection name. -/
def Query.init (collection : String) : Query :=
  ⟨[("@collection", collection)], [], [], none, 0⟩

/-- Merge keyword bind variables into the bind-variable dict
(`self._bind_vars.update(kwargs)`: last write wins). -/
def bindVarsUpdate (d : List (String × String)) (kwargs : List (String × String)) :
    List (String × String) :=
  kwargs.foldl (fun d kv =>
    if d.any (fun p => p.1 = kv.1) then
      d.map (fun p => if p.1 = kv.1 then kv else p)
    else d ++ [kv]) d

/-- `Query.filter` (lines 40-54): the joiner is None for the first condition,
else OR when `_or` was passed, else AND; the condition is appended and the
keyword bind variables merged. -/
def Query.filter (q : Query) (condition : String) (u_or : Bool)
    (kwargs : List (String × String)) : Query :=
  let joiner : Option String :=
    if q.filter_conditions.length > 0 then some (if u_or then "OR" else "AND")
    else none
  { q with
    filter_conditions := q.filter_conditions ++ [(joiner, condition)],
    bind_vars := bindVarsUpdate q.bind_vars kwargs }

/-- `Query.sort` (lines 56-61): append one sort column. -/
def Query.sort (q : Query) (col_name : String) : Query :=
  { q with sort_columns := q.sort_columns ++ [col_name] }

/-- `Query.limit` (lines 63-71): both arguments must satisfy
`isinstance(_, int)` (the only validation performed — an `assert`), then the
pair is stored, overwriting any earlier limit. -/
def Query.limit (q : Query) (num_records start_from : PyArg) :
    Except String Query :=
  match num_records, start_from with
  | PyArg.int n, PyArg.int s =>
      Except.ok { q with limit_num := some n, limit_start_record := s }
  | _, _ => Except.error "AssertionError"

/-- Rendering of one filter condition inside `_make_aql`: the first
condition (joiner None) is introduced by the FILTER keyword, later ones by
their joiner. -/
def filterLine (fc : Option String × String) : String :=
  (match fc.1 with
   | none => "FILTER "
   | some j => j ++ " ") ++ "rec." ++ fc.2 ++ " "

/-- `Query._make_aql` (lines 73-104): iteration clause, then the filter
lines, then (when sort columns exist) one SORT clause — the source appends
" rec.col," per column and strips the final character (the trailing comma),
rendered here as a comma intercalation — then (when `_limit` is truthy,
i.e. set and nonzero) one LIMIT clause written offset-first. -/
def Query.make_aql (q : Query) : String :=
  let aql := "FOR rec IN @@collection\n"
  let aql := aql ++ String.join (q.filter_conditions.map filterLine)
  let aql :=
    if q.sort_columns.isEmpty then aql
    else aql ++ "\n SORT" ++
      String.intercalate "," (q.sort_columns.map (fun sc => " rec." ++ sc))
  match q.limit_num with
  | some n =>
      if n ≠ 0 then
        aql ++ "\n LIMIT " ++ toString q.limit_start_record ++ ", " ++
          toString n ++ " "
      else aql
  | none => aql

/-- The query string executed by `Query.all` (lines 112-126): the compiled
clauses plus the terminal RETURN projection. -/
def Query.all_aql (q : Query) : String :=
  q.make_aql ++ "\n RETURN rec"

/-! ## Builder call sequences

To speak about arbitrary interleavings of `filter`, `sort` and `limit`
calls, a call sequence is reified and replayed against the builder. -/

/-- One builder call. -/
inductive BCall where
  | filt (condition : String) (u_or : Bool) (kwargs : List (String × String)) : BCall
  | sortBy (col_name : String) : BCall
  | limitTo (num_records : Int) (start_from : Int) : BCall
deriving DecidableEq, Repr

/-- Replay one call against the builder (limit called with ints, so its
assertions pass). -/
def applyCall (q : Query) : BCall → Query
  | BCall.filt c u kw => q.filter c u kw
  | BCall.sortBy col => q.sort col
  | BCall.limitTo n s =>
      match q.limit (PyArg.int n) (PyArg.int s) with
      | Except.ok q1 => q1
      | Except.error _ => q

/-- Replay a call sequence left to right. -/
def applyCalls (q : Query) (calls : List BCall) : Query :=
  calls.foldl applyCall q

/-- The filter calls of a sequence, in order. -/
def filterCallsOf : List BCall → List (String × Bool)
  | [] => []
  | BCall.filt c u _ :: rest => (c, u) :: filterCallsOf rest
  | BCall.sortBy _ :: rest => filterCallsOf rest
  | BCall.limitTo _ _ :: rest => filterCallsOf rest

/-- The sort calls of a sequence, in order. -/
def sortCallsOf : List BCall → List String
  | [] => []
  | BCall.sortBy c :: rest => c :: sortCallsOf rest
  | BCall.filt _ _ _ :: rest => sortCallsOf rest
  | BCall.limitTo _ _ :: rest => sortCallsOf rest

/-- The limit/offset state after a sequence, starting from a given pair
(the last limit call wins). -/
def limitAfter (p : Option Int × Int) : List BCall → Option Int × Int
  | [] => p
  | BCall.limitTo n s :: rest => limitAfter (some n, s) rest
  | BCall.filt _ _ _ :: rest => limitAfter p rest
  | BCall.sortBy _ :: rest => limitAfter p rest

/-- The bind variables after a sequence. -/
def bindVarsAfter (d : List (String × String)) : List BCall → List (String × String)
  | [] => d
  | BCall.filt _ _ kw :: rest => bindVarsAfter (bindVarsUpdate d kw) rest
  | BCall.sortBy _ :: rest => bindVarsAfter d rest
  | BCall.limitTo _ _ :: rest => bindVarsAfter d rest

/-- The filter-condition entries the spec predicts for a chain of filter
calls, when the builder already holds `k` conditions: no joiner on a call
that lands first, otherwise OR when the call passed `u_or`, else AND. -/
def expectedFilters : Nat → List (String × Bool) → List (Option String × String)
  | _, [] => []
  | k, (c, u) :: rest =>
      (if k = 0 then none else some (if u then "OR" else "AND"), c) ::
        expectedFilters (k + 1) rest

theorem applyCalls_filter_conditions (calls : List BCall) :
    ∀ q : Query, (applyCalls q calls).filter_conditions =
      q.filter_conditions ++
        expectedFilters q.filter_conditions.length (filterCallsOf calls) := by
  induction calls with
  | nil => intro q; simp [applyCalls, filterCallsOf, expectedFilters]
  | cons hd tl ih =>
      intro q
      cases hd with
      | filt c u kw =>
          have h := ih (q.filter c u kw)
          simp only [applyCalls, List.foldl_cons, applyCall] at h ⊢
          rw [h]
          simp [Query.filter, filterCallsOf, expectedFilters,
            List.length_eq_zero, List.length_pos]
      | sortBy col =>
          have h := ih (q.sort col)
          simp only [applyCalls, List.foldl_cons, applyCall] at h ⊢
          rw [h]; simp [Query.sort, filterCallsOf]
      | limitTo n s =>
          have h := ih { q with limit_num := some n, limit_start_record := s }
          simp only [applyCalls, List.foldl_cons, applyCall, Query.limit] at h ⊢
          rw [h]; simp [filterCallsOf]

theorem applyCalls_sort_columns (calls : List BCall) :
    ∀ q : Query, (applyCalls q calls).sort_columns =
      q.sort_columns ++ sortCallsOf calls := by
  induction calls with
  | nil => intro q; simp [applyCalls, sortCallsOf]
  | cons hd tl ih =>
      intro q
      cases hd with
      | filt c u kw =>
          have h := ih (q.filter c u kw)
          simp only [applyCalls, List.foldl_cons, applyCall] at h ⊢
          rw [h]; simp [Query.filter, sortCallsOf]
      | sortBy col =>
          have h := ih (q.sort col)
          simp only [applyCalls, List.foldl_cons, applyCall] at h ⊢
          rw [h]; simp [Query.sort, sortCallsOf]
      | limitTo n s =>
          have h := ih { q with limit_num := some n, limit_start_record := s }
          simp only [applyCalls, List.foldl_cons, applyCall, Query.limit] at h ⊢
          rw [h]; simp [sortCallsOf]

theorem applyCalls_limit (calls : List BCall) :
    ∀ q : Query, ((applyCalls q calls).limit_num,
        (applyCalls q calls).limit_start_record) =
      limitAfter (q.limit_num, q.limit_start_record) calls := by
  induction calls with
  | nil => intro q; simp [applyCalls, limitAfter]
  | cons hd tl ih =>
      intro q
      cases hd with
      | filt c u kw =>
          have h := ih (q.filter c u kw)
          simp only [applyCalls, List.foldl_cons, applyCall] at h ⊢
          rw [h]; simp [Query.filter, limitAfter]
      | sortBy col =>
          have h := ih (q.sort col)
          simp only [applyCalls, List.foldl_cons, applyCall] at h ⊢
          rw [h]; simp [Query.sort, limitAfter]
      | limitTo n s =>
          have h := ih { q with limit_num := some n, limit_start_record := s }
          simp only [applyCalls, List.foldl_cons, applyCall, Query.limit] at h ⊢
          rw [h]; simp [limitAfter]

theorem filterCallsOf_map_filt (calls : List (String × Bool)) :
    filterCallsOf (calls.map (fun c => BCall.filt c.1 c.2 [])) = calls := by
  induction calls with
  | nil => rfl
  | cons hd tl ih => simp [filterCallsOf, ih]

theorem sortCallsOf_map_filt (calls : List (String × Bool)) :
    sortCallsOf (calls.map (fun c => BCall.filt c.1 c.2 [])) = [] := by
  induction calls with
  | nil => rfl
  | cons hd tl ih => simp [sortCallsOf, ih]

theorem limitAfter_map_filt (calls : List (String × Bool)) (p : Option Int × Int) :
    limitAfter p (calls.map (fun c => BCall.filt c.1 c.2 [])) = p := by
  induction calls with
  | nil => rfl
  | cons hd tl ih => simp [limitAfter, ih]

/-- The emitted sort clause for a set of accumulated sort columns: absent
when there are none, otherwise one comma-joined SORT clause in call order. -/
def sortSection : List String → String
  | [] => ""
  | l => "\n SORT" ++ String.intercalate "," (l.map (fun sc => " rec." ++ sc))

/-- The emitted limit clause for a limit/offset state: absent when no limit
was set or the stored count is zero (python truthiness of `self._limit`),
otherwise offset first, count second. -/
def limitSection : Option Int × Int → String
  | (none, _) => ""
  | (some n, s) =>
      if n ≠ 0 then
        "\n LIMIT " ++ toString s ++ ", " ++ toString n ++ " "
      else ""

/-- C7: for every sequence of filter calls on a query builder, the first
appended predicate carries no joining keyword in the compiled query (it is
introduced by the FILTER keyword alone), and each subsequent predicate is
prefixed with OR if that call passed its or-flag as true, else with AND:
the recorded conditions equal the predicted joiner/condition list, and the
compiled query renders exactly those lines after the iteration clause. -/
theorem claim_C7 (col : String) (calls : List (String × Bool)) :
    (applyCalls (Query.init col)
        (calls.map (fun c => BCall.filt c.1 c.2 []))).filter_conditions =
      expectedFilters 0 calls ∧
    Query.make_aql (applyCalls (Query.init col)
        (calls.map (fun c => BCall.filt c.1 c.2 []))) =
      "FOR rec IN @@collection\n" ++
        String.join ((expectedFilters 0 calls).map filterLine) := by
  set cs := calls.map (fun c => BCall.filt c.1 c.2 []) with hcs
  have hf := applyCalls_filter_conditions cs (Query.init col)
  have hs := applyCalls_sort_columns cs (Query.init col)
  have hl := applyCalls_limit cs (Query.init col)
  rw [hcs, filterCallsOf_map_filt] at hf
  rw [hcs, sortCallsOf_map_filt] at hs
  rw [hcs, limitAfter_map_filt] at hl
  have hln : (applyCalls (Query.init col) cs).limit_num = none := by
    have := congrArg Prod.fst hl
    simpa [Query.init] using this
  simp only [Query.init] at hf hs hln
  refine ⟨by simpa using hf, ?_⟩
  simp [Query.make_aql, Query.init, hf, hs, hln]

/-- C8 (counterexample): the claim says a set limit always yields a limit
clause; but `_make_aql` guards the clause with python truthiness of
`self._limit`, so after `limit(0, 3)` a limit is set (count 0, offset 3)
yet the compiled query carries no LIMIT clause at all. -/
theorem claim_C8_cex :
    (applyCalls (Query.init "persons") [BCall.limitTo 0 3]).limit_num = some 0 ∧
    (applyCalls (Query.init "persons") [BCall.limitTo 0 3]).limit_start_record = 3 ∧
    Query.all_aql (applyCalls (Query.init "persons") [BCall.limitTo 0 3]) =
      "FOR rec IN @@collection\n\n RETURN rec" := by
  refine ⟨rfl, rfl, ?_⟩
  rfl

/-- C8 (amended): for every builder state reached by any interleaving of
filter, sort and limit calls, compiling emits clauses in the fixed order:
collection iteration bound to the collection bind variable, then filters in
accumulation order, then (if any sort keys exist) a single comma-joined sort
clause preserving call order, then a single limit clause with
offset-then-count ordering if a limit was set AND its count is nonzero (a
zero count suppresses the clause — python truthiness), then the terminal
RETURN projection — regardless of the order in which the calls were made. -/
theorem claim_C8_amended (col : String) (calls : List BCall) :
    Query.all_aql (applyCalls (Query.init col) calls) =
      "FOR rec IN @@collection\n" ++
        String.join ((expectedFilters 0 (filterCallsOf calls)).map filterLine) ++
        sortSection (sortCallsOf calls) ++
        limitSection (limitAfter (none, 0) calls) ++ "\n RETURN rec" := by
  have hf := applyCalls_filter_conditions calls (Query.init col)
  have hs := applyCalls_sort_columns calls (Query.init col)
  have hl := applyCalls_limit calls (Query.init col)
  have hln : (applyCalls (Query.init col) calls).limit_num =
      (limitAfter (none, 0) calls).1 := by
    have := congrArg Prod.fst hl
    simpa [Query.init] using this
  have hls : (applyCalls (Query.init col) calls).limit_start_record =
      (limitAfter (none, 0) calls).2 := by
    have := congrArg Prod.snd hl
    simpa [Query.init] using this
  simp only [Query.init] at hf hs hln hls
  simp only [Query.all_aql, Query.make_aql, Query.init, hf, hs, hln, hls]
  cases hsc : sortCallsOf calls with
  | nil =>
      cases hlc : limitAfter (none, 0) calls with
      | mk ln ls =>
          cases ln with
          | none => simp [sortSection, limitSection, String.append_assoc]
          | some n =>
              by_cases hn : n = 0
              · simp [sortSection, limitSection, hn, String.append_assoc]
              · simp [sortSection, limitSection, hn, String.append_assoc]
  | cons s0 stl =>
      cases hlc : limitAfter (none, 0) calls with
      | mk ln ls =>
          cases ln with
          | none => simp [sortSection, limitSection, String.append_assoc]
          | some n =>
              by_cases hn : n = 0
              · simp [sortSection, limitSection, hn, String.append_assoc]
              · simp [sortSection, limitSection, hn, String.append_assoc]

/-- C9 (counterexample): `Query.limit` only asserts that its two arguments
are python ints; a negative count and negative offset pass the assertions
and are stored: no precondition validation error occurs. -/
theorem claim_C9_cex :
    Query.limit (Query.init "persons") (PyArg.int (-5)) (PyArg.int (-2)) =
      Except.ok
        { bind_vars := [("@collection", "persons")], filter_conditions := [],
          sort_columns := [], limit_num := some (-5), limit_start_record := -2 } := by
  rfl

/-- C9 (amended): the only precondition `Query.limit` enforces,
synchronously and before any remote call (the function performs none), is
that both arguments are integers: the call succeeds exactly when both
arguments are ints — storing them whatever their sign — and trips its
assertion otherwise. -/
theorem claim_C9_amended (q : Query) (a b : PyArg) :
    (∃ q1, Query.limit q a b = Except.ok q1) ↔
      (∃ n, a = PyArg.int n) ∧ (∃ s, b = PyArg.int s) := by
  cases a <;> cases b <;> simp [Query.limit]

/-! ## Persister lemmas and claims -/

/-- Remote-write events (anything that is not a hook dispatch). -/
def isRemoteWriteEv : Event → Bool
  | Event.dispatch _ _ => false
  | _ => true

/-- Hook-dispatch events. -/
def isDispatchEv : Event → Bool
  | Event.dispatch _ _ => true
  | _ => false

theorem entity_post_process_dirty_nil (e : Entity) (r : Dict)
    (h : e.dirty = []) : (entity_post_process e r).dirty = [] := by
  unfold entity_post_process
  cases hk : r.lookup "_key" with
  | none =>
      cases hv : r.lookup "_rev" with
      | none => simpa using h
      | some v => by_cases hvn : v = JVal.null <;> simp [hvn, h]
  | some v =>
      by_cases hvn : v = JVal.null <;>
        cases hv : r.lookup "_rev" with
        | none => simp [hvn, h]
        | some w => by_cases hwn : w = JVal.null <;> simp [hvn, hwn, h]

theorem countP_eq_zero_of_all_dispatch (tr : List Event)
    (h : tr.all isDispatchEv = true) : tr.countP isRemoteWriteEv = 0 := by
  rw [List.countP_eq_zero]
  intro ev hev
  have := (List.all_eq_true.mp h) ev hev
  cases ev <;> simp_all [isDispatchEv, isRemoteWriteEv]

/-- C5: update with only-dirty on a clean entity is a no-op — it returns the
entity unchanged, fires no hooks and performs no remote write (empty event
trace); and when the entity is dirty, the first only-dirty update performs
exactly one remote write and leaves the dirty set empty, so an immediately
following only-dirty update with no mutation in between is a no-op with zero
remote writes. -/
theorem claim_C5 (c : Client) (e : Entity) :
    (e.dirty = [] → Database.update c e true = (e, [])) ∧
    (e.dirty ≠ [] →
      (Database.update c e true).2.countP isRemoteWriteEv = 1 ∧
      (Database.update c e true).1.dirty = [] ∧
      Database.update c (Database.update c e true).1 true =
        ((Database.update c e true).1, [])) := by
  constructor
  · intro h
    simp [Database.update, h]
  · intro h
    have hne : e.dirty.isEmpty = false := by
      cases hd : e.dirty with
      | nil => exact absurd hd h
      | cons a l => simp
    have hdirty : (Database.update c e true).1.dirty = [] := by
      simp only [Database.update, hne, Bool.and_false, Bool.and_true]
      exact entity_post_process_dirty_nil _ _ rfl
    refine ⟨?_, hdirty, ?_⟩
    · simp [Database.update, hne, List.countP_cons, isRemoteWriteEv]
    · set e1 := (Database.update c e true).1 with he1
      simp [Database.update, hdirty]

/-- A dirty entity used as a concrete test input. -/
def entDirty : Entity :=
  { eid := 1, coll := "persons",
    dump := [("_key", JVal.null), ("name", JVal.str "b")], dirty := ["name"] }

/-- A clean (empty dirty set) entity used as a concrete test input. -/
def entClean : Entity :=
  { eid := 0, coll := "persons", dump := [("name", JVal.str "a")], dirty := [] }

/-- A concrete client oracle whose calls all return empty result dicts. -/
def cl0 : Client :=
  { insertRes := fun _ _ => [],
    insertManyRes := fun _ ds => ds.map (fun _ => []),
    updateRes := fun _ _ => [],
    updateManyRes := fun _ ds => ds.map (fun _ => []) }

theorem claim_C5_witness :
    (Database.update cl0 entClean true = (entClean, [])) ∧
    ((Database.update cl0 entDirty true).2.countP isRemoteWriteEv = 1 ∧
     (Database.update cl0 entDirty true).1.dirty = [] ∧
     Database.update cl0 (Database.update cl0 entDirty true).1 true =
       ((Database.update cl0 entDirty true).1, [])) :=
  ⟨(claim_C5 cl0 entClean).1 rfl, (claim_C5 cl0 entDirty).2 (by decide)⟩

/-- A payload carries no null identity field. -/
def noNullIdent (d : Dict) : Bool :=
  d.all (fun kv => !((kv.1 == "_key" || kv.1 == "_rev") && kv.2 == JVal.null))

/-- The payloads a single event sends to the external client. -/
def eventPayloads : Event → List Dict
  | Event.dispatch _ _ => []
  | Event.insert _ d => [d]
  | Event.insertMany _ ds => ds
  | Event.updateOne _ d => [d]
  | Event.updateMany _ ds => ds

/-- Every payload sent by any event of the trace is free of null identity
fields. -/
def tracePayloadsOk (tr : List Event) : Bool :=
  tr.all (fun ev => (eventPayloads ev).all noNullIdent)

theorem noNullIdent_pre_process (d : Dict) :
    noNullIdent (entity_pre_process d) = true := by
  simp only [noNullIdent, entity_pre_process, List.all_eq_true]
  intro kv hkv
  exact (List.mem_filter.mp hkv).2

/-- Every group payload of the accumulator is free of null identity fields. -/
def groupsOk (gs : Groups) : Bool :=
  gs.all (fun p => p.2.dicts.all noNullIdent)

theorem groupsOk_addToGroup (gs : Groups) (n : String) (d : Dict) (e : Entity)
    (h1 : groupsOk gs = true) (h2 : noNullIdent d = true) :
    groupsOk (addToGroup gs n d e) = true := by
  induction gs with
  | nil => simp [addToGroup, groupsOk, h2]
  | cons hd tl ih =>
      obtain ⟨c, g⟩ := hd
      simp only [groupsOk, List.all_cons, Bool.and_eq_true] at h1
      by_cases hc : c = n
      · simp [addToGroup, hc, groupsOk, List.all_append, h1.1, h1.2, h2]
      · have := ih h1.2
        simp [addToGroup, hc, groupsOk, h1.1]
        simpa [groupsOk] using this

theorem bulkAddPhase1_ok (od : Bool) (es : List Entity) :
    ∀ gs tr, groupsOk gs = true → tracePayloadsOk tr = true →
      groupsOk (bulkAddPhase1 od es gs tr).2.1 = true ∧
      tracePayloadsOk (bulkAddPhase1 od es gs tr).2.2 = true := by
  induction es with
  | nil => intro gs tr h1 h2; simpa [bulkAddPhase1] using ⟨h1, h2⟩
  | cons e rest ih =>
      intro gs tr h1 h2
      by_cases hguard : (od && e.dirty.isEmpty) = true
      · simpa [bulkAddPhase1, hguard] using ⟨h1, h2⟩
      · have h1' := groupsOk_addToGroup gs e.coll
          (entity_pre_process
            (if od then
              e.dump.filter (fun kv => kv.1 == "_key" || e.dirty.contains kv.1)
            else e.dump))
          { e with hasDb := true, dirty := [] } h1 (noNullIdent_pre_process _)
        have h2' : tracePayloadsOk (tr ++ [Event.dispatch e.eid "pre_update"]) = true := by
          simp only [tracePayloadsOk, List.all_append, Bool.and_eq_true]
          exact ⟨h2, by simp [eventPayloads]⟩
        have := ih _ _ h1' h2'
        simpa [bulkAddPhase1, hguard] using this

theorem bulkAddFinish_dispatch_only (objs : List Entity) (res : List Dict) :
    (bulkAddFinish objs res).2.all isDispatchEv = true := by
  induction objs generalizing res with
  | nil => simp [bulkAddFinish]
  | cons e rest ih =>
      cases res with
      | nil => simp [bulkAddFinish]
      | cons r rs => simp [bulkAddFinish, isDispatchEv, ih rs]

theorem tracePayloadsOk_of_dispatch_only (tr : List Event)
    (h : tr.all isDispatchEv = true) : tracePayloadsOk tr = true := by
  simp only [tracePayloadsOk, List.all_eq_true] at h ⊢
  intro ev hev
  have := h ev hev
  cases ev <;> simp_all [isDispatchEv, eventPayloads]

theorem bulkAddPhase2_ok (c : Client) (gs : Groups)
    (h : groupsOk gs = true) :
    tracePayloadsOk (bulkAddPhase2 c gs).2 = true := by
  induction gs with
  | nil => simp [bulkAddPhase2, tracePayloadsOk]
  | cons hd tl ih =>
      obtain ⟨n, g⟩ := hd
      simp only [groupsOk, List.all_cons, Bool.and_eq_true] at h
      have htl := ih h.2
      have hfin := tracePayloadsOk_of_dispatch_only _
        (bulkAddFinish_dispatch_only g.objs (c.insertManyRes n g.dicts))
      simp only [tracePayloadsOk, List.all_eq_true] at htl hfin ⊢
      intro ev hev
      have heq : (bulkAddPhase2 c ((n, g) :: tl)).2 =
          Event.insertMany n g.dicts ::
            ((bulkAddFinish g.objs (c.insertManyRes n g.dicts)).2 ++
              (bulkAddPhase2 c tl).2) := rfl
      rw [heq, List.mem_cons, List.mem_append] at hev
      rcases hev with hev | hev | hev
      · subst hev; simpa [eventPayloads] using h.1
      · exact hfin ev hev
      · exact htl ev hev

theorem bulkUpdatePhase1_ok (od : Bool) (es : List Entity) :
    ∀ gs tr, groupsOk gs = true → tracePayloadsOk tr = true →
      groupsOk (bulkUpdatePhase1 od es gs tr).2.1 = true ∧
      tracePayloadsOk (bulkUpdatePhase1 od es gs tr).2.2 = true := by
  induction es with
  | nil => intro gs tr h1 h2; simpa [bulkUpdatePhase1] using ⟨h1, h2⟩
  | cons e rest ih =>
      intro gs tr h1 h2
      by_cases hguard : (od && e.dirty.isEmpty) = true
      · simpa [bulkUpdatePhase1, hguard] using ⟨h1, h2⟩
      · have h1' := groupsOk_addToGroup gs e.coll
          (entity_pre_process
            (if od then
              e.dump.filter (fun kv => kv.1 == "_key" || e.dirty.contains kv.1)
            else e.dump))
          { e with hasDb := true } h1 (noNullIdent_pre_process _)
        have h2' : tracePayloadsOk (tr ++ [Event.dispatch e.eid "pre_update"]) = true := by
          simp only [tracePayloadsOk, List.all_append, Bool.and_eq_true]
          exact ⟨h2, by simp [eventPayloads]⟩
        have := ih _ _ h1' h2'
        simpa [bulkUpdatePhase1, hguard] using this

theorem bulkUpdateFinish_dispatch_only (objs : List Entity) (res : List Dict) :
    (bulkUpdateFinish objs res).2.all isDispatchEv = true := by
  induction objs generalizing res with
  | nil => simp [bulkUpdateFinish]
  | cons e rest ih =>
      cases res with
      | nil => simp [bulkUpdateFinish]
      | cons r rs => simp [bulkUpdateFinish, isDispatchEv, ih rs]

theorem bulkUpdatePhase2_ok (c : Client) (gs : Groups)
    (h : groupsOk gs = true) :
    tracePayloadsOk (bulkUpdatePhase2 c gs).2 = true := by
  induction gs with
  | nil => simp [bulkUpdatePhase2, tracePayloadsOk]
  | cons hd tl ih =>
      obtain ⟨n, g⟩ := hd
      simp only [groupsOk, List.all_cons, Bool.and_eq_true] at h
      have htl := ih h.2
      have hfin := tracePayloadsOk_of_dispatch_only _
        (bulkUpdateFinish_dispatch_only g.objs (c.updateManyRes n g.dicts))
      simp only [tracePayloadsOk, List.all_eq_true] at htl hfin ⊢
      intro ev hev
      have heq : (bulkUpdatePhase2 c ((n, g) :: tl)).2 =
          Event.updateMany n g.dicts ::
            ((bulkUpdateFinish g.objs (c.updateManyRes n g.dicts)).2 ++
              (bulkUpdatePhase2 c tl).2) := rfl
      rw [heq, List.mem_cons, List.mem_append] at hev
      rcases hev with hev | hev | hev
      · subst hev; simpa [eventPayloads] using h.1
      · exact hfin ev hev
      · exact htl ev hev

/-- C6: for every add and update operation — single add, single update, bulk
add and bulk update, dirty-only or not — every payload handed to the
external client has its null identity fields (`_key`, `_rev`) stripped
beforehand: no event of any operation trace carries a payload with a null
identity field. -/
theorem claim_C6 (c : Client) (e : Entity) (od : Bool) (es : List Entity) :
    tracePayloadsOk (Database.add c e).2 = true ∧
    tracePayloadsOk (Database.update c e od).2 = true ∧
    tracePayloadsOk (Database.bulk_add c es od).trace = true ∧
    tracePayloadsOk (Database.bulk_update c es od).trace = true := by
  refine ⟨?_, ?_, ?_, ?_⟩
  · simp [Database.add, tracePayloadsOk, eventPayloads, noNullIdent_pre_process]
  · by_cases hguard : (od && e.dirty.isEmpty) = true
    · simp [Database.update, hguard, tracePayloadsOk]
    · simp [Database.update, hguard, tracePayloadsOk, eventPayloads,
        noNullIdent_pre_process]
  · have h1 := bulkAddPhase1_ok od es [] [] (by simp [groupsOk])
      (by simp [tracePayloadsOk])
    cases hshort : (bulkAddPhase1 od es [] []).1 with
    | some e0 =>
        have : (Database.bulk_add c es od).trace = (bulkAddPhase1 od es [] []).2.2 := by
          simp [Database.bulk_add, hshort]
        rw [this]; exact h1.2
    | none =>
        have htr : (Database.bulk_add c es od).trace =
            (bulkAddPhase1 od es [] []).2.2 ++
              (bulkAddPhase2 c (bulkAddPhase1 od es [] []).2.1).2 := by
          simp [Database.bulk_add, hshort]
        rw [htr]
        simp only [tracePayloadsOk, List.all_append, Bool.and_eq_true]
        exact ⟨h1.2, bulkAddPhase2_ok c _ h1.1⟩
  · have h1 := bulkUpdatePhase1_ok od es [] [] (by simp [groupsOk])
      (by simp [tracePayloadsOk])
    cases hshort : (bulkUpdatePhase1 od es [] []).1 with
    | some e0 =>
        have : (Database.bulk_update c es od).trace =
            (bulkUpdatePhase1 od es [] []).2.2 := by
          simp [Database.bulk_update, hshort]
        rw [this]; exact h1.2
    | none =>
        have htr : (Database.bulk_update c es od).trace =
            (bulkUpdatePhase1 od es [] []).2.2 ++
              (bulkUpdatePhase2 c (bulkUpdatePhase1 od es [] []).2.1).2 := by
          simp [Database.bulk_update, hshort]
        rw [htr]
        simp only [tracePayloadsOk, List.all_append, Bool.and_eq_true]
        exact ⟨h1.2, bulkUpdatePhase2_ok c _ h1.1⟩

theorem bulkAddPhase1_find (es : List Entity) :
    ∀ gs tr (e0 : Entity),
      es.find? (fun e => e.dirty.isEmpty) = some e0 →
      ∃ gs1 ds, bulkAddPhase1 true es gs tr = (some e0, gs1, tr ++ ds) ∧
        ds.all isDispatchEv = true := by
  induction es with
  | nil => intro gs tr e0 h; simp [List.find?] at h
  | cons e rest ih =>
      intro gs tr e0 h
      by_cases hd : e.dirty.isEmpty = true
      · simp only [List.find?, hd] at h
        obtain rfl := Option.some.inj h
        refine ⟨gs, [], ?_, rfl⟩
        simp [bulkAddPhase1, hd]
      · have hd2 : e.dirty.isEmpty = false := by simpa using hd
        simp only [List.find?, hd2] at h
        obtain ⟨gs1, ds, heq, hds⟩ := ih _ (tr ++ [Event.dispatch e.eid "pre_update"]) e0 h
        refine ⟨gs1, Event.dispatch e.eid "pre_update" :: ds, ?_, ?_⟩
        · simp only [bulkAddPhase1, hd2, Bool.and_false]
          rw [if_neg (by simp)]
          rw [heq, List.append_assoc]
          rfl
        · simpa [isDispatchEv] using hds

theorem bulkUpdatePhase1_find (es : List Entity) :
    ∀ gs tr (e0 : Entity),
      es.find? (fun e => e.dirty.isEmpty) = some e0 →
      ∃ gs1 ds, bulkUpdatePhase1 true es gs tr = (some e0, gs1, tr ++ ds) ∧
        ds.all isDispatchEv = true := by
  induction es with
  | nil => intro gs tr e0 h; simp [List.find?] at h
  | cons e rest ih =>
      intro gs tr e0 h
      by_cases hd : e.dirty.isEmpty = true
      · simp only [List.find?, hd] at h
        obtain rfl := Option.some.inj h
        refine ⟨gs, [], ?_, rfl⟩
        simp [bulkUpdatePhase1, hd]
      · have hd2 : e.dirty.isEmpty = false := by simpa using hd
        simp only [List.find?, hd2] at h
        obtain ⟨gs1, ds, heq, hds⟩ := ih _ (tr ++ [Event.dispatch e.eid "pre_update"]) e0 h
        refine ⟨gs1, Event.dispatch e.eid "pre_update" :: ds, ?_, ?_⟩
        · simp only [bulkUpdatePhase1, hd2, Bool.and_false]
          rw [if_neg (by simp)]
          rw [heq, List.append_assoc]
          rfl
        · simpa [isDispatchEv] using hds

/-- C4: for every input list to bulk add or bulk update with only-dirty
true, if some entity has an empty dirty set then the call returns that
entity alone (the first such entity, via the short-circuit return — not the
per-collection result mapping) and issues no remote call at all: the trace
contains no batched insert or update event. -/
theorem claim_C4 (c : Client) (es : List Entity) (e0 : Entity)
    (h : es.find? (fun e => e.dirty.isEmpty) = some e0) :
    (Database.bulk_add c es true).short = some e0 ∧
    (Database.bulk_add c es true).trace.countP isRemoteWriteEv = 0 ∧
    (Database.bulk_update c es true).short = some e0 ∧
    (Database.bulk_update c es true).trace.countP isRemoteWriteEv = 0 := by
  obtain ⟨gs1, ds, heq, hds⟩ := bulkAddPhase1_find es [] [] e0 h
  obtain ⟨gs2, ds2, heq2, hds2⟩ := bulkUpdatePhase1_find es [] [] e0 h
  refine ⟨?_, ?_, ?_, ?_⟩
  · simp [Database.bulk_add, heq]
  · have : (Database.bulk_add c es true).trace = ds := by
      simp [Database.bulk_add, heq]
    rw [this]; exact countP_eq_zero_of_all_dispatch ds hds
  · simp [Database.bulk_update, heq2]
  · have : (Database.bulk_update c es true).trace = ds2 := by
      simp [Database.bulk_update, heq2]
    rw [this]; exact countP_eq_zero_of_all_dispatch ds2 hds2

theorem claim_C4_witness :
    (Database.bulk_add cl0 [entDirty, entClean] true).short = some entClean ∧
    (Database.bulk_add cl0 [entDirty, entClean] true).trace.countP
      isRemoteWriteEv = 0 ∧
    (Database.bulk_update cl0 [entDirty, entClean] true).short = some entClean ∧
    (Database.bulk_update cl0 [entDirty, entClean] true).trace.countP
      isRemoteWriteEv = 0 :=
  claim_C4 cl0 [entDirty, entClean] entClean (by decide)

/-- The payload `bulk_add`/`bulk_update` serializes for one entity:
with only-dirty, the dump restricted to `_key` and dirty fields; always with
null identity fields stripped. -/
def bulkData (od : Bool) (e : Entity) : Dict :=
  entity_pre_process
    (if od then e.dump.filter (fun kv => kv.1 == "_key" || e.dirty.contains kv.1)
     else e.dump)

/-- Entity state after the first bulk-add loop: persister attached, dirty
set cleared. -/
def procAdd (e : Entity) : Entity := { e with hasDb := true, dirty := [] }

/-- Entity state after the first bulk-update loop: persister attached (the
dirty-clearing line is commented out in the source). -/
def procUpd (e : Entity) : Entity := { e with hasDb := true }

/-- All entity objects held in the accumulator, group order then input
order inside each group. -/
def flatObjs (gs : Groups) : List Entity :=
  (gs.map (fun p => p.2.objs)).flatten

theorem flatObjs_cons (c : String) (g : Group) (tl : Groups) :
    flatObjs ((c, g) :: tl) = g.objs ++ flatObjs tl := by
  simp [flatObjs]

theorem mem_flatObjs_addToGroup_self (gs : Groups) (n : String) (d : Dict)
    (e : Entity) : e ∈ flatObjs (addToGroup gs n d e) := by
  induction gs with
  | nil => simp [addToGroup, flatObjs]
  | cons hd tl ih =>
      obtain ⟨c, g⟩ := hd
      by_cases hc : c = n
      · rw [show addToGroup ((c, g) :: tl) n d e =
            (c, ⟨g.dicts ++ [d], g.objs ++ [e]⟩) :: tl by simp [addToGroup, hc]]
        rw [flatObjs_cons]
        simp
      · rw [show addToGroup ((c, g) :: tl) n d e =
            (c, g) :: addToGroup tl n d e by simp [addToGroup, hc]]
        rw [flatObjs_cons]
        exact List.mem_append.mpr (Or.inr ih)

theorem mem_flatObjs_addToGroup_mono (gs : Groups) (n : String) (d : Dict)
    (e x : Entity) (h : x ∈ flatObjs gs) : x ∈ flatObjs (addToGroup gs n d e) := by
  induction gs with
  | nil => simp [flatObjs] at h
  | cons hd tl ih =>
      obtain ⟨c, g⟩ := hd
      rw [flatObjs_cons] at h
      rcases List.mem_append.mp h with h1 | h1
      · by_cases hc : c = n
        · rw [show addToGroup ((c, g) :: tl) n d e =
              (c, ⟨g.dicts ++ [d], g.objs ++ [e]⟩) :: tl by simp [addToGroup, hc]]
          rw [flatObjs_cons]
          exact List.mem_append.mpr (Or.inl (List.mem_append.mpr (Or.inl h1)))
        · rw [show addToGroup ((c, g) :: tl) n d e =
              (c, g) :: addToGroup tl n d e by simp [addToGroup, hc]]
          rw [flatObjs_cons]
          exact List.mem_append.mpr (Or.inl h1)
      · by_cases hc : c = n
        · rw [show addToGroup ((c, g) :: tl) n d e =
              (c, ⟨g.dicts ++ [d], g.objs ++ [e]⟩) :: tl by simp [addToGroup, hc]]
          rw [flatObjs_cons]
          exact List.mem_append.mpr (Or.inr h1)
        · rw [show addToGroup ((c, g) :: tl) n d e =
              (c, g) :: addToGroup tl n d e by simp [addToGroup, hc]]
          rw [flatObjs_cons]
          exact List.mem_append.mpr (Or.inr (ih h1))

theorem bulkAddPhase1_pre (pre : List Entity) :
    ∀ gs tr (e0 : Entity) (rest : List Entity),
      (∀ e ∈ pre, e.dirty ≠ []) → e0.dirty = [] →
      bulkAddPhase1 true (pre ++ e0 :: rest) gs tr =
        (some e0,
         pre.foldl (fun g e => addToGroup g e.coll (bulkData true e) (procAdd e)) gs,
         tr ++ pre.map (fun e => Event.dispatch e.eid "pre_update")) := by
  induction pre with
  | nil =>
      intro gs tr e0 rest _ h2
      simp [bulkAddPhase1, h2]
  | cons e pre ih =>
      intro gs tr e0 rest h1 h2
      have hne : e.dirty.isEmpty = false := by
        have := h1 e (by simp)
        cases hd : e.dirty with
        | nil => exact absurd hd this
        | cons a l => simp
      have hstep := ih (addToGroup gs e.coll (bulkData true e) (procAdd e))
        (tr ++ [Event.dispatch e.eid "pre_update"]) e0 rest
        (fun x hx => h1 x (by simp [hx])) h2
      have hgoal : bulkAddPhase1 true ((e :: pre) ++ e0 :: rest) gs tr =
          bulkAddPhase1 true (pre ++ e0 :: rest)
            (addToGroup gs e.coll (bulkData true e) (procAdd e))
            (tr ++ [Event.dispatch e.eid "pre_update"]) := by
        simp only [List.cons_append, bulkAddPhase1, hne, Bool.and_false]
        rw [if_neg (by simp)]
        rfl
      rw [hgoal, hstep]
      simp [List.append_assoc]

theorem bulkUpdatePhase1_pre (pre : List Entity) :
    ∀ gs tr (e0 : Entity) (rest : List Entity),
      (∀ e ∈ pre, e.dirty ≠ []) → e0.dirty = [] →
      bulkUpdatePhase1 true (pre ++ e0 :: rest) gs tr =
        (some e0,
         pre.foldl (fun g e => addToGroup g e.coll (bulkData true e) (procUpd e)) gs,
         tr ++ pre.map (fun e => Event.dispatch e.eid "pre_update")) := by
  induction pre with
  | nil =>
      intro gs tr e0 rest _ h2
      simp [bulkUpdatePhase1, h2]
  | cons e pre ih =>
      intro gs tr e0 rest h1 h2
      have hne : e.dirty.isEmpty = false := by
        have := h1 e (by simp)
        cases hd : e.dirty with
        | nil => exact absurd hd this
        | cons a l => simp
      have hstep := ih (addToGroup gs e.coll (bulkData true e) (procUpd e))
        (tr ++ [Event.dispatch e.eid "pre_update"]) e0 rest
        (fun x hx => h1 x (by simp [hx])) h2
      have hgoal : bulkUpdatePhase1 true ((e :: pre) ++ e0 :: rest) gs tr =
          bulkUpdatePhase1 true (pre ++ e0 :: rest)
            (addToGroup gs e.coll (bulkData true e) (procUpd e))
            (tr ++ [Event.dispatch e.eid "pre_update"]) := by
        simp only [List.cons_append, bulkUpdatePhase1, hne, Bool.and_false]
        rw [if_neg (by simp)]
        rfl
      rw [hgoal, hstep]
      simp [List.append_assoc]

theorem mem_flatObjs_foldl_mono (pre : List Entity) (proc : Entity → Entity) :
    ∀ gs (x : Entity), x ∈ flatObjs gs →
      x ∈ flatObjs
        (pre.foldl (fun g e => addToGroup g e.coll (bulkData true e) (proc e)) gs) := by
  induction pre with
  | nil => intro gs x hx; simpa using hx
  | cons e pre ih =>
      intro gs x hx
      simp only [List.foldl_cons]
      exact ih _ x (mem_flatObjs_addToGroup_mono _ _ _ _ _ hx)

theorem mem_flatObjs_foldl (pre : List Entity) (proc : Entity → Entity) :
    ∀ gs (x : Entity), x ∈ pre →
      proc x ∈ flatObjs
        (pre.foldl (fun g e => addToGroup g e.coll (bulkData true e) (proc e)) gs) := by
  induction pre with
  | nil => intro gs x hx; simp at hx
  | cons e pre ih =>
      intro gs x hx
      rcases List.mem_cons.mp hx with hx | hx
      · subst hx
        simp only [List.foldl_cons]
        exact mem_flatObjs_foldl_mono pre proc _ (proc x)
          (mem_flatObjs_addToGroup_self gs x.coll (bulkData true x) (proc x))
      · simp only [List.foldl_cons]
        exact ih _ x hx

/-- C10: bulk add and bulk update with only-dirty true are not atomic over
entity state: when the short-circuit triggers on the first entity with an
empty dirty set, the returned value is that entity, the trace shows that
every earlier entity already had its pre-update hook dispatched (and nothing
else happened — no remote call was issued), and the accumulator holds every
earlier entity with the persister reference attached (`hasDb`), with its
dirty set additionally cleared in the bulk-add case. -/
theorem claim_C10 (c : Client) (pre rest : List Entity) (e0 : Entity)
    (h1 : ∀ e ∈ pre, e.dirty ≠ []) (h2 : e0.dirty = []) :
    (Database.bulk_add c (pre ++ e0 :: rest) true).short = some e0 ∧
    (Database.bulk_add c (pre ++ e0 :: rest) true).trace =
      pre.map (fun e => Event.dispatch e.eid "pre_update") ∧
    (∀ e ∈ pre,
      procAdd e ∈ flatObjs (Database.bulk_add c (pre ++ e0 :: rest) true).groups) ∧
    (Database.bulk_update c (pre ++ e0 :: rest) true).short = some e0 ∧
    (Database.bulk_update c (pre ++ e0 :: rest) true).trace =
      pre.map (fun e => Event.dispatch e.eid "pre_update") ∧
    (∀ e ∈ pre,
      procUpd e ∈ flatObjs (Database.bulk_update c (pre ++ e0 :: rest) true).groups) := by
  have ha := bulkAddPhase1_pre pre [] [] e0 rest h1 h2
  have hu := bulkUpdatePhase1_pre pre [] [] e0 rest h1 h2
  have hA : Database.bulk_add c (pre ++ e0 :: rest) true =
      ⟨some e0,
       pre.foldl (fun g e => addToGroup g e.coll (bulkData true e) (procAdd e)) [],
       pre.map (fun e => Event.dispatch e.eid "pre_update")⟩ := by
    simp [Database.bulk_add, ha]
  have hU : Database.bulk_update c (pre ++ e0 :: rest) true =
      ⟨some e0,
       pre.foldl (fun g e => addToGroup g e.coll (bulkData true e) (procUpd e)) [],
       pre.map (fun e => Event.dispatch e.eid "pre_update")⟩ := by
    simp [Database.bulk_update, hu]
  refine ⟨by rw [hA], by rw [hA], ?_, by rw [hU], by rw [hU], ?_⟩
  · intro e he
    rw [hA]
    exact mem_flatObjs_foldl pre procAdd [] e he
  · intro e he
    rw [hU]
    exact mem_flatObjs_foldl pre procUpd [] e he

theorem claim_C10_witness :
    (Database.bulk_add cl0 ([entDirty] ++ entClean :: []) true).short = some entClean ∧
    (Database.bulk_add cl0 ([entDirty] ++ entClean :: []) true).trace =
      [entDirty].map (fun e => Event.dispatch e.eid "pre_update") ∧
    (∀ e ∈ [entDirty],
      procAdd e ∈ flatObjs (Database.bulk_add cl0 ([entDirty] ++ entClean :: []) true).groups) ∧
    (Database.bulk_update cl0 ([entDirty] ++ entClean :: []) true).short = some entClean ∧
    (Database.bulk_update cl0 ([entDirty] ++ entClean :: []) true).trace =
      [entDirty].map (fun e => Event.dispatch e.eid "pre_update") ∧
    (∀ e ∈ [entDirty],
      procUpd e ∈ flatObjs (Database.bulk_update cl0 ([entDirty] ++ entClean :: []) true).groups) :=
  claim_C10 cl0 [entDirty] [] entClean (by decide) (by decide)

theorem bulkAddPhase1_false (es : List Entity) :
    ∀ gs tr,
      bulkAddPhase1 false es gs tr =
        (none,
         es.foldl (fun g e => addToGroup g e.coll (bulkData false e) (procAdd e)) gs,
         tr ++ es.map (fun e => Event.dispatch e.eid "pre_update")) := by
  induction es with
  | nil => intro gs tr; simp [bulkAddPhase1]
  | cons e es ih =>
      intro gs tr
      have hgoal : bulkAddPhase1 false (e :: es) gs tr =
          bulkAddPhase1 false es
            (addToGroup gs e.coll (bulkData false e) (procAdd e))
            (tr ++ [Event.dispatch e.eid "pre_update"]) := by
        simp only [bulkAddPhase1, Bool.false_and]
        rw [if_neg (by simp)]
        rfl
      rw [hgoal, ih]
      simp [List.append_assoc]

/-- The collection names of the accumulator, in insertion order. -/
def keysOf (gs : Groups) : List String := gs.map Prod.fst

theorem lookup_addToGroup (gs : Groups) (m n : String) (d : Dict) (e : Entity) :
    (addToGroup gs m d e).lookup n =
      (if n = m then
        (match gs.lookup n with
         | some g => some ⟨g.dicts ++ [d], g.objs ++ [e]⟩
         | none => some ⟨[d], [e]⟩)
      else gs.lookup n) := by
  induction gs with
  | nil =>
      by_cases hn : n = m
      · simp [addToGroup, List.lookup, hn]
      · have hb : (n == m) = false := by simp [hn]
        simp [addToGroup, List.lookup, hb, hn]
  | cons hd tl ih =>
      obtain ⟨c, g⟩ := hd
      by_cases hc : c = m
      · subst hc
        rw [show addToGroup ((c, g) :: tl) c d e =
            (c, ⟨g.dicts ++ [d], g.objs ++ [e]⟩) :: tl by simp [addToGroup]]
        by_cases hn : n = c
        · simp [List.lookup, hn]
        · have hb : (n == c) = false := by simp [hn]
          simp [List.lookup, hb, hn]
      · rw [show addToGroup ((c, g) :: tl) m d e =
            (c, g) :: addToGroup tl m d e by simp [addToGroup, hc]]
        by_cases hn : n = c
        · have hnm : ¬n = m := by rw [hn]; exact hc
          simp [List.lookup, hn, hnm, hc]
        · have hb : (n == c) = false := by simp [hn]
          simp only [List.lookup, hb]
          exact ih

theorem lookup_groupFold (dfn : Entity → Dict) (pfn : Entity → Entity)
    (es : List Entity) :
    ∀ (gs : Groups) (n : String),
      (es.foldl (fun g e => addToGroup g e.coll (dfn e) (pfn e)) gs).lookup n =
        (match gs.lookup n with
         | some g =>
             some ⟨g.dicts ++ (es.filter (fun e => e.coll == n)).map dfn,
                   g.objs ++ (es.filter (fun e => e.coll == n)).map pfn⟩
         | none =>
             if es.any (fun e => e.coll == n) then
               some ⟨(es.filter (fun e => e.coll == n)).map dfn,
                     (es.filter (fun e => e.coll == n)).map pfn⟩
             else none) := by
  induction es with
  | nil =>
      intro gs n
      cases h : gs.lookup n <;> simp [h]
  | cons e es ih =>
      intro gs n
      simp only [List.foldl_cons]
      rw [ih (addToGroup gs e.coll (dfn e) (pfn e)) n]
      rw [lookup_addToGroup]
      by_cases hc : n = e.coll
      · have hb : (e.coll == n) = true := by simp [hc]
        rw [if_pos hc]
        cases h : gs.lookup n with
        | some g =>
            simp [List.filter_cons, List.any_cons, hb]
        | none =>
            simp [List.filter_cons, List.any_cons, hb]
      · have hb : (e.coll == n) = false := by
          simp only [beq_eq_false_iff_ne, ne_eq]
          intro h; exact hc h.symm
        rw [if_neg hc]
        cases h : gs.lookup n with
        | some g => simp [List.filter_cons, List.any_cons, hb]
        | none => simp [List.filter_cons, List.any_cons, hb]

theorem keysOf_addToGroup (gs : Groups) (m : String) (d : Dict) (e : Entity) :
    keysOf (addToGroup gs m d e) =
      (if m ∈ keysOf gs then keysOf gs else keysOf gs ++ [m]) := by
  induction gs with
  | nil => simp [addToGroup, keysOf]
  | cons hd tl ih =>
      obtain ⟨c, g⟩ := hd
      by_cases hc : c = m
      · subst hc
        rw [show addToGroup ((c, g) :: tl) c d e =
            (c, ⟨g.dicts ++ [d], g.objs ++ [e]⟩) :: tl by simp [addToGroup]]
        simp [keysOf]
      · rw [show addToGroup ((c, g) :: tl) m d e =
            (c, g) :: addToGroup tl m d e by simp [addToGroup, hc]]
        have hmc : ¬m = c := fun h => hc h.symm
        simp only [keysOf, List.map_cons, List.mem_cons]
        by_cases hm : m ∈ List.map Prod.fst tl
        · rw [if_pos (Or.inr hm)]
          have := ih
          simp only [keysOf] at this
          rw [this, if_pos hm]
        · rw [if_neg (by rintro (h | h); exact hmc h; exact hm h)]
          have := ih
          simp only [keysOf] at this
          rw [this, if_neg hm]
          simp

theorem nodup_keysOf_addToGroup (gs : Groups) (m : String) (d : Dict) (e : Entity)
    (h : (keysOf gs).Nodup) : (keysOf (addToGroup gs m d e)).Nodup := by
  rw [keysOf_addToGroup]
  by_cases hm : m ∈ keysOf gs
  · rw [if_pos hm]; exact h
  · rw [if_neg hm]
    simp [List.nodup_append, h, hm]

theorem nodup_keysOf_groupFold (dfn : Entity → Dict) (pfn : Entity → Entity)
    (es : List Entity) :
    ∀ gs, (keysOf gs).Nodup →
      (keysOf (es.foldl (fun g e => addToGroup g e.coll (dfn e) (pfn e)) gs)).Nodup := by
  induction es with
  | nil => intro gs h; simpa using h
  | cons e es ih =>
      intro gs h
      simp only [List.foldl_cons]
      exact ih _ (nodup_keysOf_addToGroup gs e.coll (dfn e) (pfn e) h)

theorem lookup_eq_none_of_not_mem_keys (gs : Groups) (n : String)
    (h : n ∉ keysOf gs) : gs.lookup n = none := by
  induction gs with
  | nil => rfl
  | cons hd tl ih =>
      obtain ⟨c, g⟩ := hd
      simp only [keysOf, List.map_cons, List.mem_cons, not_or] at h
      have hb : (n == c) = false := by simp [h.1]
      simp only [List.lookup, hb]
      exact ih (by simpa [keysOf] using h.2)

/-- Batched-insert events targeting collection `n`. -/
def isInsertManyFor (n : String) : Event → Bool
  | Event.insertMany m _ => m == n
  | _ => false

theorem filter_isInsertManyFor_dispatch_only (n : String) (tr : List Event)
    (h : tr.all isDispatchEv = true) : tr.filter (isInsertManyFor n) = [] := by
  rw [List.filter_eq_nil_iff]
  intro ev hev
  have := List.all_eq_true.mp h ev hev
  cases ev <;> simp_all [isDispatchEv, isInsertManyFor]

theorem bulkAddPhase2_filter (c : Client) (n : String) :
    ∀ gs : Groups, (keysOf gs).Nodup →
      ((bulkAddPhase2 c gs).2).filter (isInsertManyFor n) =
        (match gs.lookup n with
         | some g => [Event.insertMany n g.dicts]
         | none => []) := by
  intro gs
  induction gs with
  | nil => intro _; simp [bulkAddPhase2, List.lookup]
  | cons hd tl ih =>
      intro hnd
      obtain ⟨m, g⟩ := hd
      have heq : (bulkAddPhase2 c ((m, g) :: tl)).2 =
          Event.insertMany m g.dicts ::
            ((bulkAddFinish g.objs (c.insertManyRes m g.dicts)).2 ++
              (bulkAddPhase2 c tl).2) := rfl
      rw [heq]
      simp only [keysOf, List.map_cons, List.nodup_cons] at hnd
      have hfin := filter_isInsertManyFor_dispatch_only n _
        (bulkAddFinish_dispatch_only g.objs (c.insertManyRes m g.dicts))
      by_cases hm : m = n
      · subst hm
        have hlook : List.lookup m tl = none :=
          lookup_eq_none_of_not_mem_keys tl m (by simpa [keysOf] using hnd.1)
        have htl := ih hnd.2
        rw [hlook] at htl
        simp [List.filter_cons, List.filter_append, isInsertManyFor, hfin, htl,
          List.lookup]
      · have hb : (m == n) = false := by simp [hm]
        have hb2 : (n == m) = false := by
          simp only [beq_eq_false_iff_ne, ne_eq]
          intro h; exact hm h.symm
        have htl := ih hnd.2
        simp [List.filter_cons, List.filter_append, isInsertManyFor, hb, hfin, htl,
          List.lookup, hb2]

theorem filter_isInsertManyFor_map_dispatch (n : String) (es : List Entity) :
    ((es.map (fun e => Event.dispatch e.eid "pre_update")).filter
      (isInsertManyFor n)) = [] := by
  rw [List.filter_eq_nil_iff]
  intro ev hev
  obtain ⟨e, _, rfl⟩ := List.mem_map.mp hev
  simp [isInsertManyFor]

/-- C3 (counterexample): the pre-hook that `bulk_add` fires before the
batched insert is pre_update, not the pre-add hook that the single-entity
add path fires: on a one-entity bulk add the trace carries no pre_add
dispatch at all, only a pre_update one, while the single add path leads
with pre_add. -/
theorem claim_C3_cex :
    (Database.bulk_add cl0 [entClean] false).trace.countP
      (fun ev => ev == Event.dispatch 0 "pre_add") = 0 ∧
    Event.dispatch 0 "pre_update" ∈ (Database.bulk_add cl0 [entClean] false).trace ∧
    (Database.add cl0 entClean).2.head? = some (Event.dispatch 0 "pre_add") := by
  refine ⟨by decide, by decide, by decide⟩

/-- C3 (amended): for every entity processed by bulk add, the pre-hook fired
before the batched insert call is the pre-update hook (differing from the
single-entity add path, which fires pre-add): the trace starts with exactly
one pre_update dispatch per input entity, in input order, before any insert
event; and exactly one batched insert call is issued per distinct target
collection in the input, whose payload list is the per-group subsequence of
serialized inputs in their original relative order. -/
theorem claim_C3_amended (c : Client) (es : List Entity) (n : String) :
    (Database.bulk_add c es false).trace.filter (isInsertManyFor n) =
      (if es.any (fun e => e.coll == n) then
        [Event.insertMany n ((es.filter (fun e => e.coll == n)).map (bulkData false))]
       else []) ∧
    (Database.bulk_add c es false).trace.take es.length =
      es.map (fun e => Event.dispatch e.eid "pre_update") := by
  have hp1 := bulkAddPhase1_false es [] []
  have htrace : (Database.bulk_add c es false).trace =
      es.map (fun e => Event.dispatch e.eid "pre_update") ++
        (bulkAddPhase2 c
          (es.foldl (fun g e => addToGroup g e.coll (bulkData false e) (procAdd e))
            [])).2 := by
    simp [Database.bulk_add, hp1]
  have hlook := lookup_groupFold (bulkData false) procAdd es [] n
  rw [show List.lookup n ([] : Groups) = none from rfl] at hlook
  have hnd := nodup_keysOf_groupFold (bulkData false) procAdd es []
    (by simp [keysOf])
  have hfilter := bulkAddPhase2_filter c n _ hnd
  rw [hlook] at hfilter
  constructor
  · rw [htrace, List.filter_append, filter_isInsertManyFor_map_dispatch,
      List.nil_append, hfilter]
    by_cases hany : es.any (fun e => e.coll == n) = true
    · rw [if_pos hany, if_pos hany]
    · rw [if_neg hany, if_neg hany]
  · rw [htrace]
    rw [show es.length =
        (es.map (fun e => Event.dispatch e.eid "pre_update")).length by simp]
    exact List.take_left _ _

/-! ## Graph synchronizer lemmas and claims -/

/-- Boolean test that two name lists contain the same names, as sets. -/
def sameSetB (l1 l2 : List String) : Bool :=
  l1.all (fun x => l2.contains x) && l2.all (fun x => l1.contains x)

/-- The equivalence on edge definitions as worded by the spec: edge
collection names match and the source-name and target-name sets are equal as
sets, order and duplicates irrelevant.  Stated from the spec for comparison
with the implemented `Database.is_same_edge`. -/
def specEquivEdge (d live : EdgeDef) : Bool :=
  (d.edge_collection == live.edge_collection) &&
  sameSetB d.from_vertex_collections live.from_vertex_collections &&
  sameSetB d.to_vertex_collections live.to_vertex_collections

theorem sameSetB_iff (l1 l2 : List String) :
    sameSetB l1 l2 = true ↔ (∀ x, x ∈ l1 ↔ x ∈ l2) := by
  simp only [sameSetB, Bool.and_eq_true, List.all_eq_true, List.elem_iff]
  constructor
  · rintro ⟨h1, h2⟩ x
    exact ⟨fun hx => h1 x hx, fun hx => h2 x hx⟩
  · intro h
    exact ⟨fun x hx => (h x).mp hx, fun x hx => (h x).mpr hx⟩

theorem length_subset_iff_sameSet (l1 l2 : List String)
    (h1 : l1.Nodup) (h2 : l2.Nodup) :
    (l1.length = l2.length ∧ ∀ x ∈ l1, x ∈ l2) ↔ (∀ x, x ∈ l1 ↔ x ∈ l2) := by
  constructor
  · rintro ⟨hlen, hsub⟩
    have hsp : List.Subperm l1 l2 := h1.subperm (fun x hx => hsub x hx)
    have hperm : l1.Perm l2 := hsp.perm_of_length_le (le_of_eq hlen.symm)
    exact fun x => hperm.mem_iff
  · intro hiff
    have p1 : List.Subperm l1 l2 := h1.subperm (fun x hx => (hiff x).mp hx)
    have p2 : List.Subperm l2 l1 := h2.subperm (fun x hx => (hiff x).mpr hx)
    have hperm : l1.Perm l2 := p1.antisymm p2
    exact ⟨hperm.length_eq, fun x hx => (hiff x).mp hx⟩

theorem is_same_edge_true_iff (d live : EdgeDef) :
    Database.is_same_edge d live = true ↔
      (d.to_vertex_collections.length = live.to_vertex_collections.length ∧
       d.from_vertex_collections.length = live.from_vertex_collections.length ∧
       (∀ x ∈ d.to_vertex_collections, x ∈ live.to_vertex_collections) ∧
       (∀ x ∈ d.from_vertex_collections, x ∈ live.from_vertex_collections)) := by
  unfold Database.is_same_edge
  split
  case isTrue h =>
      simp only [Bool.false_eq_true, false_iff]
      rintro ⟨hl1, hl2, _, _⟩
      rcases h with h | h <;> exact h (by omega)
  case isFalse h =>
      push_neg at h
      simp only [Bool.and_eq_true, List.all_eq_true, List.elem_iff]
      constructor
      · rintro ⟨ht, hf⟩
        exact ⟨h.1, h.2, fun x hx => ht x hx, fun x hx => hf x hx⟩
      · rintro ⟨_, _, ht, hf⟩
        exact ⟨fun x hx => ht x hx, fun x hx => hf x hx⟩

theorem is_same_edge_iff_sameSet (d live : EdgeDef)
    (nd1 : d.from_vertex_collections.Nodup)
    (nd2 : live.from_vertex_collections.Nodup)
    (nd3 : d.to_vertex_collections.Nodup)
    (nd4 : live.to_vertex_collections.Nodup) :
    (Database.is_same_edge d live = true ↔
      (sameSetB d.from_vertex_collections live.from_vertex_collections = true ∧
       sameSetB d.to_vertex_collections live.to_vertex_collections = true)) := by
  rw [is_same_edge_true_iff, sameSetB_iff, sameSetB_iff]
  rw [← length_subset_iff_sameSet _ _ nd1 nd2, ← length_subset_iff_sameSet _ _ nd3 nd4]
  constructor
  · rintro ⟨h1, h2, h3, h4⟩
    exact ⟨⟨h2, h4⟩, ⟨h1, h3⟩⟩
  · rintro ⟨⟨h2, h4⟩, ⟨h1, h3⟩⟩
    exact ⟨h1, h2, h3, h4⟩

/-- Replace-edge-definition actions for the edge collection `n`. -/
def isReplaceFor (n : String) : GraphAction → Bool
  | GraphAction.replaceEdgeDefinition d => d.edge_collection == n
  | _ => false

/-- Delete-edge-definition actions for the edge collection `n`. -/
def isDeleteFor (n : String) : GraphAction → Bool
  | GraphAction.deleteEdgeDefinition m => m == n
  | _ => false

/-- Collection-drop actions. -/
def isDropCollection : GraphAction → Bool
  | GraphAction.dropCollection _ => true
  | _ => false

theorem mem_ugCreateVertices (exC : List String) (g : DeclaredGraph)
    (a : GraphAction) (h : a ∈ ugCreateVertices exC g) :
    ∃ v, a = GraphAction.createCollection v := by
  obtain ⟨v, _, hv⟩ := List.mem_filterMap.mp h
  by_cases hc : exC.contains v = true
  · rw [if_pos hc] at hv; cases hv
  · rw [if_neg (by simpa using hc)] at hv
    exact ⟨v, (Option.some.inj hv).symm⟩

theorem mem_ugCreateEdgeCollections (exC : List String) (g : DeclaredGraph)
    (a : GraphAction) (h : a ∈ ugCreateEdgeCollections exC g) :
    ∃ v, a = GraphAction.createCollection v := by
  obtain ⟨rel, _, hv⟩ := List.mem_filterMap.mp h
  by_cases hc : exC.contains rel.edge_collection = true
  · rw [if_pos hc] at hv; cases hv
  · rw [if_neg (by simpa using hc)] at hv
    exact ⟨rel.edge_collection, (Option.some.inj hv).symm⟩

theorem ugSyncEdgeDefs_cons (d : List (String × EdgeDef)) (r : EdgeDef)
    (rs : List EdgeDef) :
    ugSyncEdgeDefs d (r :: rs) =
      (match d.lookup r.edge_collection with
       | none => [GraphAction.createEdgeDefinition r]
       | some live =>
           if Database.is_same_edge r live then []
           else [GraphAction.replaceEdgeDefinition r]) ++ ugSyncEdgeDefs d rs := rfl

theorem ugDropStale_cons (kv : String × EdgeDef) (tl : List (String × EdgeDef))
    (conns : List String) :
    ugDropStale (kv :: tl) conns =
      (if conns.contains kv.1 then []
       else [GraphAction.warnStale kv.1, GraphAction.deleteEdgeDefinition kv.1]) ++
        ugDropStale tl conns := rfl

theorem mem_ugSyncEdgeDefs (d : List (String × EdgeDef)) (rels : List EdgeDef)
    (a : GraphAction) (h : a ∈ ugSyncEdgeDefs d rels) :
    ∃ r ∈ rels, a = GraphAction.createEdgeDefinition r ∨
      a = GraphAction.replaceEdgeDefinition r := by
  induction rels with
  | nil => simp [ugSyncEdgeDefs] at h
  | cons r rs ih =>
      rw [ugSyncEdgeDefs_cons] at h
      rcases List.mem_append.mp h with h1 | h1
      · refine ⟨r, by simp, ?_⟩
        revert h1
        cases hl : List.lookup r.edge_collection d with
        | none =>
            intro h1
            simp at h1
            exact Or.inl h1
        | some live =>
            intro h1
            by_cases hs : Database.is_same_edge r live = true
            · simp [hs] at h1
            · simp [hs] at h1
              exact Or.inr h1
      · obtain ⟨r1, hr1, ha⟩ := ih h1
        exact ⟨r1, by simp [hr1], ha⟩

theorem mem_ugDropStale (d : List (String × EdgeDef)) (conns : List String)
    (a : GraphAction) (h : a ∈ ugDropStale d conns) :
    ∃ k, k ∈ d.map Prod.fst ∧ conns.contains k = false ∧
      (a = GraphAction.warnStale k ∨ a = GraphAction.deleteEdgeDefinition k) := by
  induction d with
  | nil => simp [ugDropStale] at h
  | cons kv tl ih =>
      rw [ugDropStale_cons] at h
      rcases List.mem_append.mp h with h1 | h1
      · by_cases hc : conns.contains kv.1 = true
        · rw [if_pos hc] at h1; cases h1
        · rw [if_neg (by simpa using hc)] at h1
          refine ⟨kv.1, by simp, by simpa using hc, ?_⟩
          rcases List.mem_cons.mp h1 with h2 | h2
          · exact Or.inl h2
          · simp at h2; exact Or.inr h2
      · obtain ⟨k, hk, hc, ha⟩ := ih h1
        exact ⟨k, by simp [hk], hc, ha⟩
theorem countP_eq_zero_of_false {p : GraphAction → Bool} {l : List GraphAction}
    (h : ∀ a ∈ l, p a = false) : l.countP p = 0 := by
  rw [List.countP_eq_zero]
  intro a ha
  simp [h a ha]

theorem countP_ugSyncEdgeDefs_zero (d : List (String × EdgeDef))
    (rels : List EdgeDef) (name : String)
    (h : ∀ r ∈ rels, r.edge_collection ≠ name) :
    (ugSyncEdgeDefs d rels).countP (isReplaceFor name) = 0 :=
  countP_eq_zero_of_false (fun a ha => by
    obtain ⟨r, hr, hcase⟩ := mem_ugSyncEdgeDefs d rels a ha
    rcases hcase with rfl | rfl
    · rfl
    · simp only [isReplaceFor, beq_eq_false_iff_ne, ne_eq]
      exact h r hr)

theorem countP_ugSyncEdgeDefs (d : List (String × EdgeDef))
    (rels : List EdgeDef) (rel : EdgeDef)
    (hnd : (rels.map (fun r => r.edge_collection)).Nodup) (hr : rel ∈ rels) :
    (ugSyncEdgeDefs d rels).countP (isReplaceFor rel.edge_collection) =
      (match d.lookup rel.edge_collection with
       | none => 0
       | some live => if Database.is_same_edge rel live then 0 else 1) := by
  induction rels with
  | nil => cases hr
  | cons r rs ih =>
      rw [ugSyncEdgeDefs_cons, List.countP_append]
      simp only [List.map_cons, List.nodup_cons] at hnd
      rcases List.mem_cons.mp hr with heq | hmem
      · subst heq
        have hzero : (ugSyncEdgeDefs d rs).countP (isReplaceFor rel.edge_collection) = 0 :=
          countP_ugSyncEdgeDefs_zero d rs _ (fun r' hr' hne =>
            hnd.1 (by rw [← hne]; exact List.mem_map_of_mem _ hr'))
        rw [hzero]
        cases hl : List.lookup rel.edge_collection d with
        | none => simp [isReplaceFor]
        | some live =>
            by_cases hs : Database.is_same_edge rel live = true
            · simp [hs]
            · simp [hs, isReplaceFor, List.countP_cons]
      · have hne : r.edge_collection ≠ rel.edge_collection := by
          intro he
          exact hnd.1 (by rw [he]; exact List.mem_map_of_mem _ hmem)
        have hhead :
            ((match d.lookup r.edge_collection with
              | none => [GraphAction.createEdgeDefinition r]
              | some live =>
                  if Database.is_same_edge r live then []
                  else [GraphAction.replaceEdgeDefinition r]) : List GraphAction).countP
              (isReplaceFor rel.edge_collection) = 0 := by
          apply countP_eq_zero_of_false
          intro a ha
          revert ha
          cases hl : List.lookup r.edge_collection d with
          | none =>
              intro ha
              simp at ha
              subst ha
              rfl
          | some live =>
              intro ha
              by_cases hs : Database.is_same_edge r live = true
              · simp [hs] at ha
              · simp [hs] at ha
                subst ha
                simp only [isReplaceFor, beq_eq_false_iff_ne, ne_eq]
                exact hne
        rw [hhead, ih hnd.2 hmem]
        simp

theorem map_fst_pyDictInsert (d : List (String × EdgeDef)) (k : String)
    (v : EdgeDef) :
    (pyDictInsert d k v).map Prod.fst =
      (if d.any (fun kv => kv.1 = k) then d.map Prod.fst
       else d.map Prod.fst ++ [k]) := by
  unfold pyDictInsert
  by_cases h : d.any (fun kv => kv.1 = k) = true
  · rw [if_pos h, if_pos h, List.map_map]
    apply List.map_congr_left
    intro kv _
    by_cases hk : kv.1 = k
    · simp [hk]
    · simp [hk]
  · rw [if_neg h, if_neg h]
    simp

theorem nodup_map_fst_pyDictInsert (d : List (String × EdgeDef)) (k : String)
    (v : EdgeDef) (h : (d.map Prod.fst).Nodup) :
    ((pyDictInsert d k v).map Prod.fst).Nodup := by
  rw [map_fst_pyDictInsert]
  by_cases hany : d.any (fun kv => kv.1 = k) = true
  · rw [if_pos hany]; exact h
  · rw [if_neg hany]
    have hk : k ∉ d.map Prod.fst := by
      intro hmem
      obtain ⟨kv, hkv, hfst⟩ := List.mem_map.mp hmem
      exact hany (List.any_eq_true.mpr ⟨kv, hkv, by simp [hfst]⟩)
    simp [List.nodup_append, h, hk]

theorem nodup_map_fst_pyDictOf (ps : List (String × EdgeDef)) :
    ((pyDictOf ps).map Prod.fst).Nodup := by
  have aux : ∀ (l : List (String × EdgeDef)) (d : List (String × EdgeDef)),
      (d.map Prod.fst).Nodup →
      ((l.foldl (fun d kv => pyDictInsert d kv.1 kv.2) d).map Prod.fst).Nodup := by
    intro l
    induction l with
    | nil => intro d h; simpa using h
    | cons kv tl ih =>
        intro d h
        simp only [List.foldl_cons]
        exact ih _ (nodup_map_fst_pyDictInsert d kv.1 kv.2 h)
  exact aux ps [] (by simp)

theorem countP_ugDropStale_zero (d : List (String × EdgeDef))
    (conns : List String) (name : String) (h : name ∉ d.map Prod.fst) :
    (ugDropStale d conns).countP (isDeleteFor name) = 0 :=
  countP_eq_zero_of_false (fun a ha => by
    obtain ⟨k, hk, _, hcase⟩ := mem_ugDropStale d conns a ha
    rcases hcase with rfl | rfl
    · rfl
    · simp only [isDeleteFor, beq_eq_false_iff_ne, ne_eq]
      intro he
      exact h (he ▸ hk))

theorem countP_ugDropStale_delete (d : List (String × EdgeDef))
    (conns : List String) (name : String)
    (hnd : (d.map Prod.fst).Nodup) (hmem : name ∈ d.map Prod.fst)
    (hnc : conns.contains name = false) :
    (ugDropStale d conns).countP (isDeleteFor name) = 1 := by
  induction d with
  | nil => simp at hmem
  | cons kv tl ih =>
      rw [ugDropStale_cons, List.countP_append]
      simp only [List.map_cons, List.nodup_cons] at hnd
      rcases List.mem_cons.mp hmem with heq | hmem2
      · subst heq
        rw [if_neg (by simp only [hnc]; simp)]
        have htail := countP_ugDropStale_zero tl conns kv.1 hnd.1
        rw [htail]
        simp [List.countP_cons, isDeleteFor]
      · have hne : kv.1 ≠ name := by
          intro he
          exact hnd.1 (he ▸ hmem2)
        have hhead :
            ((if conns.contains kv.1 then []
              else [GraphAction.warnStale kv.1,
                    GraphAction.deleteEdgeDefinition kv.1]) : List GraphAction).countP
              (isDeleteFor name) = 0 := by
          by_cases hc : conns.contains kv.1 = true
          · rw [if_pos hc]; rfl
          · rw [if_neg hc]
            apply countP_eq_zero_of_false
            intro a ha
            rcases List.mem_cons.mp ha with rfl | ha2
            · rfl
            · simp at ha2
              subst ha2
              simp only [isDeleteFor, beq_eq_false_iff_ne, ne_eq]
              exact hne
        rw [hhead, ih hnd.2 hmem2]

theorem warnStale_mem_ugDropStale (d : List (String × EdgeDef))
    (conns : List String) (name : String) (live : EdgeDef)
    (hmem : (name, live) ∈ d) (hnc : conns.contains name = false) :
    GraphAction.warnStale name ∈ ugDropStale d conns := by
  induction d with
  | nil => simp at hmem
  | cons kv tl ih =>
      rw [ugDropStale_cons]
      rcases List.mem_cons.mp hmem with heq | hmem2
      · subst heq
        rw [if_neg (by simp only [hnc]; simp)]
        simp
      · exact List.mem_append.mpr (Or.inr (ih hmem2))

/-- A declared edge definition used as a concrete test input. -/
def edDecl : EdgeDef := ⟨"dns_info", ["dns_records"], ["domains"]⟩

/-- A live edge definition equal to `edDecl` as sets but with a duplicated
target name. -/
def edLive : EdgeDef := ⟨"dns_info", ["dns_records"], ["domains", "domains"]⟩

/-- C1 (counterexample): the claim says a replace happens iff the
definitions are NOT set-equivalent (duplicates irrelevant); but
`_is_same_edge` compares list lengths first, so a live definition whose
target list repeats a name is set-equivalent to the declared one yet still
triggers exactly one replaceEdgeDefinition call. -/
theorem claim_C1_cex :
    specEquivEdge edDecl edLive = true ∧
    (Database.update_graph ["dns_records", "domains", "dns_info"] [edLive]
        ⟨[], [edDecl]⟩).countP (isReplaceFor "dns_info") = 1 := by
  refine ⟨by decide, by decide⟩

/-- C1 (amended): during a synchronization pass, for every declared relation
whose edge-collection name matches a live edge definition, the live
definition is replaced (exactly one replaceEdgeDefinition call) iff the
declared and live definitions fail `_is_same_edge`; when all four
source/target name lists are duplicate-free this coincides with the claimed
set equivalence: exactly one replace iff the source-name sets or the
target-name sets differ as sets.  (With duplicated entries the code compares
lengths and one-sided membership instead, as the counterexample shows.) -/
theorem claim_C1_amended (exC : List String) (live_edges : List EdgeDef)
    (g : DeclaredGraph) (rel live : EdgeDef)
    (hnd : (g.relations.map (fun r => r.edge_collection)).Nodup)
    (hr : rel ∈ g.relations)
    (hl : (pyDictOf (live_edges.map (fun e => (e.edge_collection, e)))).lookup
        rel.edge_collection = some live)
    (nd1 : rel.from_vertex_collections.Nodup)
    (nd2 : live.from_vertex_collections.Nodup)
    (nd3 : rel.to_vertex_collections.Nodup)
    (nd4 : live.to_vertex_collections.Nodup) :
    (Database.update_graph exC live_edges g).countP
        (isReplaceFor rel.edge_collection) =
      (if sameSetB rel.from_vertex_collections live.from_vertex_collections &&
          sameSetB rel.to_vertex_collections live.to_vertex_collections
       then 0 else 1) := by
  unfold Database.update_graph
  rw [List.countP_append, List.countP_append, List.countP_append]
  have h1 : (ugCreateVertices exC g).countP (isReplaceFor rel.edge_collection) = 0 :=
    countP_eq_zero_of_false (fun a ha => by
      obtain ⟨v, rfl⟩ := mem_ugCreateVertices exC g a ha; rfl)
  have h2 : (ugCreateEdgeCollections exC g).countP
      (isReplaceFor rel.edge_collection) = 0 :=
    countP_eq_zero_of_false (fun a ha => by
      obtain ⟨v, rfl⟩ := mem_ugCreateEdgeCollections exC g a ha; rfl)
  have h4 : (ugDropStale (pyDictOf (live_edges.map (fun e => (e.edge_collection, e))))
      (g.relations.map (fun r => r.edge_collection))).countP
        (isReplaceFor rel.edge_collection) = 0 :=
    countP_eq_zero_of_false (fun a ha => by
      obtain ⟨k, _, _, hcase⟩ := mem_ugDropStale _ _ a ha
      rcases hcase with rfl | rfl <;> rfl)
  have h3 := countP_ugSyncEdgeDefs
    (pyDictOf (live_edges.map (fun e => (e.edge_collection, e)))) g.relations rel hnd hr
  rw [hl] at h3
  rw [h1, h2, h3, h4]
  have hiff := is_same_edge_iff_sameSet rel live nd1 nd2 nd3 nd4
  by_cases hs : Database.is_same_edge rel live = true
  · obtain ⟨hs1, hs2⟩ := hiff.mp hs
    simp [hs, hs1, hs2]
  · have hb : ¬(sameSetB rel.from_vertex_collections live.from_vertex_collections &&
        sameSetB rel.to_vertex_collections live.to_vertex_collections) = true := by
      intro hb
      exact hs (hiff.mpr (by simpa [Bool.and_eq_true] using hb))
    simp [hs, hb]

/-- Test fixtures for the C1 witness: a declared relation whose target list
differs from the live one. -/
def edRelW : EdgeDef := ⟨"e1", ["v1"], ["v2", "v3"]⟩

/-- The live counterpart of `edRelW` with a smaller target set. -/
def edLiveW : EdgeDef := ⟨"e1", ["v1"], ["v2"]⟩

/-- A concrete declared graph holding `edRelW`. -/
def gW : DeclaredGraph := ⟨["v1", "v2"], [edRelW]⟩

theorem claim_C1_amended_witness :
    (Database.update_graph ["v1", "v2", "e1"] [edLiveW] gW).countP
        (isReplaceFor edRelW.edge_collection) =
      (if sameSetB edRelW.from_vertex_collections edLiveW.from_vertex_collections &&
          sameSetB edRelW.to_vertex_collections edLiveW.to_vertex_collections
       then 0 else 1) :=
  claim_C1_amended ["v1", "v2", "e1"] [edLiveW] gW edRelW edLiveW (by decide)
    (by decide) (by decide) (by decide) (by decide) (by decide) (by decide)

/-- C2: during a synchronization pass, every live edge definition whose edge
collection has no declared relation gets a divergence warning and exactly
one deleteEdgeDefinition call for that edge collection; delete calls only
ever target live-but-undeclared edge collections, and the pass never drops a
vertex or edge collection. -/
theorem claim_C2 (exC : List String) (live_edges : List EdgeDef)
    (g : DeclaredGraph) (name : String) (live : EdgeDef)
    (hmem : (name, live) ∈ pyDictOf (live_edges.map (fun e => (e.edge_collection, e))))
    (hnd : (g.relations.map (fun r => r.edge_collection)).contains name = false) :
    (Database.update_graph exC live_edges g).countP (isDeleteFor name) = 1 ∧
    GraphAction.warnStale name ∈ Database.update_graph exC live_edges g ∧
    (Database.update_graph exC live_edges g).countP isDropCollection = 0 ∧
    (∀ m, GraphAction.deleteEdgeDefinition m ∈ Database.update_graph exC live_edges g →
      m ∈ (pyDictOf (live_edges.map (fun e => (e.edge_collection, e)))).map Prod.fst ∧
      (g.relations.map (fun r => r.edge_collection)).contains m = false) := by
  have hkeys : name ∈ (pyDictOf (live_edges.map (fun e => (e.edge_collection, e)))).map
      Prod.fst := List.mem_map.mpr ⟨(name, live), hmem, rfl⟩
  have hkeysnd := nodup_map_fst_pyDictOf (live_edges.map (fun e => (e.edge_collection, e)))
  refine ⟨?_, ?_, ?_, ?_⟩
  · unfold Database.update_graph
    rw [List.countP_append, List.countP_append, List.countP_append]
    have h1 : (ugCreateVertices exC g).countP (isDeleteFor name) = 0 :=
      countP_eq_zero_of_false (fun a ha => by
        obtain ⟨v, rfl⟩ := mem_ugCreateVertices exC g a ha; rfl)
    have h2 : (ugCreateEdgeCollections exC g).countP (isDeleteFor name) = 0 :=
      countP_eq_zero_of_false (fun a ha => by
        obtain ⟨v, rfl⟩ := mem_ugCreateEdgeCollections exC g a ha; rfl)
    have h3 : (ugSyncEdgeDefs
        (pyDictOf (live_edges.map (fun e => (e.edge_collection, e))))
        g.relations).countP (isDeleteFor name) = 0 :=
      countP_eq_zero_of_false (fun a ha => by
        obtain ⟨r, _, hcase⟩ := mem_ugSyncEdgeDefs _ _ a ha
        rcases hcase with rfl | rfl <;> rfl)
    have h4 := countP_ugDropStale_delete
      (pyDictOf (live_edges.map (fun e => (e.edge_collection, e))))
      (g.relations.map (fun r => r.edge_collection)) name hkeysnd hkeys hnd
    rw [h1, h2, h3, h4]
  · unfold Database.update_graph
    exact List.mem_append.mpr (Or.inr
      (warnStale_mem_ugDropStale _ _ name live hmem hnd))
  · unfold Database.update_graph
    apply countP_eq_zero_of_false
    intro a ha
    rcases List.mem_append.mp ha with ha1 | ha4
    · rcases List.mem_append.mp ha1 with ha2 | ha3
      · rcases List.mem_append.mp ha2 with hv | he
        · obtain ⟨v, rfl⟩ := mem_ugCreateVertices exC g a hv; rfl
        · obtain ⟨v, rfl⟩ := mem_ugCreateEdgeCollections exC g a he; rfl
      · obtain ⟨r, _, hcase⟩ := mem_ugSyncEdgeDefs _ _ a ha3
        rcases hcase with rfl | rfl <;> rfl
    · obtain ⟨k, _, _, hcase⟩ := mem_ugDropStale _ _ a ha4
      rcases hcase with rfl | rfl <;> rfl
  · intro m hm
    unfold Database.update_graph at hm
    rcases List.mem_append.mp hm with hm1 | hm4
    · exfalso
      rcases List.mem_append.mp hm1 with hm2 | hm3
      · rcases List.mem_append.mp hm2 with hv | he
        · obtain ⟨v, hv2⟩ := mem_ugCreateVertices exC g _ hv; cases hv2
        · obtain ⟨v, hv2⟩ := mem_ugCreateEdgeCollections exC g _ he; cases hv2
      · obtain ⟨r, _, hcase⟩ := mem_ugSyncEdgeDefs _ _ _ hm3
        rcases hcase with h | h <;> cases h
    · obtain ⟨k, hk, hc, hcase⟩ := mem_ugDropStale _ _ _ hm4
      rcases hcase with h | h
      · cases h
      · obtain rfl : m = k := by cases h; rfl
        exact ⟨hk, hc⟩

/-- A live edge definition with no declared counterpart, for the C2
witness. -/
def edStaleW : EdgeDef := ⟨"old_edge", ["a"], ["b"]⟩

theorem claim_C2_witness :
    (Database.update_graph ["v1", "v2", "e1"] [edLiveW, edStaleW] gW).countP
        (isDeleteFor "old_edge") = 1 ∧
    GraphAction.warnStale "old_edge" ∈
      Database.update_graph ["v1", "v2", "e1"] [edLiveW, edStaleW] gW ∧
    (Database.update_graph ["v1", "v2", "e1"] [edLiveW, edStaleW] gW).countP
        isDropCollection = 0 ∧
    (∀ m, GraphAction.deleteEdgeDefinition m ∈
        Database.update_graph ["v1", "v2", "e1"] [edLiveW, edStaleW] gW →
      m ∈ (pyDictOf ([edLiveW, edStaleW].map
        (fun e => (e.edge_collection, e)))).map Prod.fst ∧
      (gW.relations.map (fun r => r.edge_collection)).contains m = false) :=
  claim_C2 ["v1", "v2", "e1"] [edLiveW, edStaleW] gW "old_edge" edStaleW
    (by decide) (by decide)

end ArangoOrm